import Mathlib

/-!
Verification of the `rstat` library core (file `rstat.go`): the `ps`-output
table parser, the process-tree builder, the tree traversal utilities and the
command/error helpers.  Go functions are shallowly embedded as executable Lean
functions; Go `map[string]string` values are modelled as association lists with
replace-on-insert semantics, Go `map[int]*ProcNode` as an association list keyed
by pid, and the pointer structure produced by `buildProcTree` as a finite graph
(pid-keyed node table with child lists of pids).  Machine integers are modelled
as `Int` with the explicit `2^63` range checks performed by `strconv.Atoi`.
-/

namespace RStat

/-- Whitespace as decided by Go's `unicode.IsSpace` (the Unicode `White_Space`
property), used by `strings.Fields` and `bytes.TrimSpace`. -/
def goIsSpace (c : Char) : Bool :=
  c.toNat = 0x09 ∨ c.toNat = 0x0A ∨ c.toNat = 0x0B ∨ c.toNat = 0x0C ∨
  c.toNat = 0x0D ∨ c.toNat = 0x20 ∨ c.toNat = 0x85 ∨ c.toNat = 0xA0 ∨
  c.toNat = 0x1680 ∨ (0x2000 ≤ c.toNat ∧ c.toNat ≤ 0x200A) ∨
  c.toNat = 0x2028 ∨ c.toNat = 0x2029 ∨ c.toNat = 0x202F ∨
  c.toNat = 0x205F ∨ c.toNat = 0x3000

/-- Whitespace as matched by the RE2 character class in the regular expression
compiled from the pattern backslash-s (Go `regexp` Perl class): tab, newline,
form feed, carriage return, space. -/
def re2Space (c : Char) : Bool :=
  c.toNat = 0x09 ∨ c.toNat = 0x0A ∨ c.toNat = 0x0C ∨ c.toNat = 0x0D ∨
  c.toNat = 0x20

/-- Helper for `goFields`: split a character list into maximal non-whitespace
words, accumulating the current word in reverse. -/
def fieldsAux : List Char → List Char → List String
  | cur, [] => if cur.isEmpty then [] else [String.mk cur.reverse]
  | cur, c :: cs =>
    if goIsSpace c then
      if cur.isEmpty then fieldsAux [] cs
      else String.mk cur.reverse :: fieldsAux [] cs
    else fieldsAux (c :: cur) cs

/-- Model of Go `strings.Fields`: the words of a string, splitting on runs of
`unicode.IsSpace` characters. -/
def goFields (s : String) : List String := fieldsAux [] s.data

/-- Helper for `re2SplitCap`: splitting of a character list around runs of
RE2 whitespace, with a cap on the number of pieces; the last piece is the
unsplit remainder. -/
def splitCapAux : List Char → Nat → List String
  | _, 0 => []
  | cs, 1 => [String.mk cs]
  | cs, Nat.succ (Nat.succ k) =>
    let f := cs.takeWhile (fun c => ¬ re2Space c)
    let r := cs.dropWhile (fun c => ¬ re2Space c)
    if r.isEmpty then [String.mk f]
    else String.mk f :: splitCapAux (r.dropWhile re2Space) (Nat.succ k)

/-- Model of `wsRe.Split(s, n)` from `rstat.go`, where `wsRe` is the compiled
regular expression matching runs of RE2 whitespace: at most `n` pieces, the
last piece being the unsplit remainder of the string. -/
def re2SplitCap (s : String) (n : Nat) : List String := splitCapAux s.data n

/-- Model of Go `bytes.TrimSpace` / `strings.TrimSpace`: remove leading and
trailing `unicode.IsSpace` characters. -/
def goTrimSpace (s : String) : String :=
  String.mk (((s.data.dropWhile goIsSpace).reverse.dropWhile goIsSpace).reverse)

/-- Numeric value of a list of decimal digit characters (most significant
first), as accumulated by `strconv`. -/
def digitsToNat (ds : List Char) : Nat :=
  ds.foldl (fun a c => 10 * a + (c.toNat - '0'.toNat)) 0

/-- The two failure modes of Go `strconv.Atoi` (`strconv.ErrSyntax` and
`strconv.ErrRange`). -/
inductive AtoiErr where
  | badSyn : AtoiErr
  | outOfRange : AtoiErr
deriving DecidableEq, Repr

/-- Model of Go `strconv.Atoi` (= `strconv.ParseInt(s, 10, 64)` followed by a
conversion to `int`): an optional single leading sign, then one or more
decimal digits, value range-checked against a signed 64-bit integer. -/
def goAtoi (s : String) : Except AtoiErr Int :=
  match s.data with
  | [] => .error .badSyn
  | c :: rest =>
    let neg : Bool := c = '-'
    let ds : List Char := if c = '-' ∨ c = '+' then rest else c :: rest
    if ds.isEmpty ∨ ¬ ds.all Char.isDigit then .error .badSyn
    else
      let n : Nat := digitsToNat ds
      if neg then
        if n ≤ 2 ^ 63 then .ok (-(n : Int)) else .error .outOfRange
      else
        if n ≤ 2 ^ 63 - 1 then .ok (n : Int) else .error .outOfRange

/-- A Go `map[string]string` record, as built by the parser: an association
list with at most one binding per key. -/
abbrev Record : Type := List (String × String)

/-- Go map lookup `m[k]` on a `Record`: the bound value, or the zero value
(the empty string) when the key is absent. -/
def rget (m : Record) (k : String) : String :=
  match m.find? (fun p => p.1 == k) with
  | some p => p.2
  | none => ""

/-- Whether a key is present in a `Record` (Go `_, ok := m[k]`). -/
def rhas (m : Record) (k : String) : Bool :=
  (m.find? (fun p => p.1 == k)).isSome

/-- Go map assignment `m[k] = v` on a `Record`: replace the binding if the key
is present, otherwise append a new binding at the end. -/
def rinsert : Record → String → String → Record
  | [], k, v => [(k, v)]
  | e :: es, k, v => if e.1 == k then (k, v) :: es else e :: rinsert es k v

/-- The error values produced by the `rstat.go` core, one constructor per
`fmt.Errorf` / `errors.New` site: invalid header, wrong column count on a data
row, missing/empty metric, unparsable metric, negative metric, missing root. -/
inductive RErr where
  | headerErr (fields : List String) : RErr
  | rowShape (got expected : Nat) (fields : List String) : RErr
  | missingField (key : String) : RErr
  | numFormat (key val : String) (e : AtoiErr) : RErr
  | negValue (key val : String) : RErr
  | rootNotFound : RErr
deriving DecidableEq, Repr

deriving instance DecidableEq for Except

/-- Model of `getPid` from `rstat.go`: read a non-negative integer metric from
a record; empty/absent value, `strconv.Atoi` failure and negative values are
reported through distinct errors. -/
def getPid (stats : Record) (key : String) : Except RErr Int :=
  if (rget stats key).length = 0 then .error (.missingField key)
  else
    match goAtoi (rget stats key) with
    | .error e => .error (.numFormat key (rget stats key) e)
    | .ok v => if v < 0 then .error (.negValue key (rget stats key)) else .ok v

/-- Build a record by zipping header names with row fields and performing the
Go map assignments `m[p.header[i]] = s` in order. -/
def zipRecord (hdr fields : List String) : Record :=
  (List.zip hdr fields).foldl (fun m p => rinsert m p.1 p.2) []

/-- Model of `psParser.read` together with the `strit` parse loop: consume the
data lines after the header, checking the capped whitespace split of each line
against the header length and accumulating records in order. -/
def readRows (hdr : List String) : List String → List Record → Except RErr (List Record)
  | [], acc => .ok acc
  | l :: ls, acc =>
    let fields := re2SplitCap l hdr.length
    if fields.length ≠ hdr.length then
      .error (.rowShape fields.length hdr.length fields)
    else readRows hdr ls (acc ++ [zipRecord hdr fields])

/-- Model of running the `psParser` state machine (`Enter` on the first line,
then `read` on every further line) over a sequence of already trimmed,
non-empty lines; with no input lines at all, `Enter` is never invoked and the
accumulated record list is empty. -/
def psParse (lines : List String) : Except RErr (List Record) :=
  match lines with
  | [] => .ok []
  | h :: rest =>
    let hdr := goFields h
    if hdr.length < 2 then .error (.headerErr hdr)
    else readRows hdr rest []

/-- The first loop of `makePsCommand` from `rstat.go`: record whether a
command alias (`args`, `cmd`, `command`) was requested, skip the identifier
columns `pid`/`ppid`, and collect the remaining columns as the key set of the
deduplication map `m` (Go `m[c] = 0` adds the key when absent and leaves the
key set unchanged otherwise).  The key list is kept in first-insertion order
as a representative of the unordered key set. -/
def psColKeys (columns : List String) : List String × Bool :=
  columns.foldl
    (fun (acc : List String × Bool) c =>
      if c = "args" ∨ c = "cmd" ∨ c = "command" then (acc.1, true)
      else if c = "pid" ∨ c = "ppid" then acc
      else if acc.1.contains c then acc else (acc.1 ++ [c], acc.2))
    ([], false)

/-- Model of `makePsCommand` from `rstat.go`.  The middle columns are emitted
by iterating the deduplication map (`for c := range m`), and the Go runtime
leaves a map's iteration order unspecified; the model therefore takes the
observed iteration sequence `mid` as a parameter.  A run of the program
corresponds to some `mid` enumerating the key set of the map, i.e. to some
permutation of `(psColKeys columns).1`. -/
def makePsCommand (columns : List String) (mid : List String) : List String :=
  if columns.isEmpty then ["ps", "-ewwF"]
  else
    ["ps", "-ewwo",
      mid.foldl (fun b c => b ++ "," ++ c) "pid,ppid" ++
        (if (psColKeys columns).2 then ",cmd" else "")]

/-- A node of the process tree: the pid, the metrics map, and the child list.
The Go node stores child pointers; since every node built by `buildProcTree`
lives in the pid-keyed map, the pointers are modelled as the pids of the
children. -/
structure PN where
  pid : Int
  stats : Record
  children : List Int
deriving DecidableEq, Repr

/-- The pid-keyed node table (Go `map[int]*ProcNode`), in first-insertion
order of the keys. -/
abbrev BGraph : Type := List (Int × PN)

/-- Lookup in a pid-keyed association list (Go `nodes[pid]`, `nil` when
absent). -/
def idxLookup {α : Type} (g : List (Int × α)) (p : Int) : Option α :=
  match g.find? (fun e => e.1 == p) with
  | some e => some e.2
  | none => none

/-- Go map assignment `nodes[pid] = node` on a pid-keyed association list:
replace if present, else append at the end. -/
def idxInsert {α : Type} : List (Int × α) → Int → α → List (Int × α)
  | [], p, v => [(p, v)]
  | e :: es, p, v => if e.1 == p then (p, v) :: es else e :: idxInsert es p v

/-- The loop of the first pass of `buildProcTree`, with the accumulated map as
an explicit parameter and the Go early `return nil, err` as error
propagation. -/
def buildIdxGo (idx : List (Int × Record)) : List Record → Except RErr (List (Int × Record))
  | [] => .ok idx
  | r :: rs =>
    match getPid r "PID" with
    | .error e => .error e
    | .ok pid => buildIdxGo (idxInsert idx pid r) rs

/-- First pass of `buildProcTree`: extract the pid of each record and build
the pid-to-record map (later records with the same pid overwrite earlier
ones), failing on the first record whose `PID` does not extract. -/
def buildIdx (stats : List Record) : Except RErr (List (Int × Record)) :=
  buildIdxGo [] stats

/-- Append a child pid to the parent's child list; a no-op when the parent pid
is not in the table (Go `if parent := nodes[ppid]; parent != nil`). -/
def addChild (g : BGraph) (parent child : Int) : BGraph :=
  g.map (fun e =>
    if e.1 == parent then (e.1, ⟨e.2.pid, e.2.stats, e.2.children ++ [child]⟩)
    else e)

/-- The loop of the second pass of `buildProcTree`, with the graph as an
explicit accumulator. -/
def linkGo (g : BGraph) : List (Int × Record) → Except RErr BGraph
  | [] => .ok g
  | e :: l =>
    match getPid e.2 "PPID" with
    | .error er => .error er
    | .ok ppid => linkGo (addChild g ppid e.1) l

/-- Second pass of `buildProcTree`: wrap each indexed record into a node, then
for each node extract its `PPID` from its stats and attach the node to its
parent when the parent pid is present in the table. -/
def linkPass (idx : List (Int × Record)) : Except RErr BGraph :=
  linkGo (idx.map (fun e => (e.1, ⟨e.1, e.2, []⟩))) idx

/-- Model of `buildProcTree` from `rstat.go`: index the records by pid, link
children to parents, and return the node with pid 1 as the root together with
the node table the returned pointer structure lives in; fail when pid 1 is
absent. -/
def buildProcTree (stats : List Record) : Except RErr (PN × BGraph) :=
  match buildIdx stats with
  | .error e => .error e
  | .ok idx =>
    match linkPass idx with
    | .error e => .error e
    | .ok g =>
      match idxLookup g 1 with
      | some root => .ok (root, g)
      | none => .error .rootNotFound

/-! ### Tree traversal (`ProcNode.Find`, `ProcNode.ForEach`, `iterNodes`)

For the traversal claims the tree is taken as the data model guarantees it:
a finite acyclic tree, i.e. an inductive value. -/

/-- A process-tree node as traversed by `Find`/`ForEach`: pid, metrics map and
the ordered list of child subtrees. -/
inductive ProcNode : Type where
  | mk : Int → Record → List ProcNode → ProcNode

/-- The pid of a node. -/
def ProcNode.pid : ProcNode → Int
  | .mk p _ _ => p

/-- The metrics map of a node. -/
def ProcNode.stats : ProcNode → Record
  | .mk _ s _ => s

/-- The child list of a node. -/
def ProcNode.children : ProcNode → List ProcNode
  | .mk _ _ cs => cs

/-- Depth-first pre-order listing of all nodes of a forest: each root, then
its subtree, then the remaining trees.  This is the traversal order stated by
the specification. -/
def preorderF : List ProcNode → List ProcNode
  | [] => []
  | .mk p s cs :: ns => .mk p s cs :: (preorderF cs ++ preorderF ns)

/-- Depth-first pre-order listing of the nodes of a tree. -/
def preorder (n : ProcNode) : List ProcNode :=
  n :: preorderF n.children

/-- Number of nodes in a forest. -/
def sizeF : List ProcNode → Nat
  | [] => 0
  | .mk _ _ cs :: ns => 1 + sizeF cs + sizeF ns

/-- Number of nodes in a tree. -/
def ProcNode.size (n : ProcNode) : Nat := 1 + sizeF n.children

/-- Total number of nodes held in a traversal stack. -/
def stackSize (stack : List (List ProcNode)) : Nat :=
  match stack with
  | [] => 0
  | top :: rest => sizeF top + stackSize rest

/-- Model of the loop body of `iterNodes` from `rstat.go`, iterating over the
top list of the stack (the Go stack grows at the slice end; the model keeps
the top of the stack at the head).  On a predicate match the node is returned
with an empty stack; on meeting a node with children the remaining siblings
stay below the pushed child list; when the list is exhausted the top is
popped. -/
def iterTop (pred : Int → Record → Bool) :
    List ProcNode → List (List ProcNode) → Option ProcNode × List (List ProcNode)
  | [], rest => (none, rest)
  | .mk p s cs :: ns, rest =>
    if pred p s then (some (.mk p s cs), [])
    else
      match cs with
      | [] => iterTop pred ns rest
      | c :: cs' => (none, (c :: cs') :: ns :: rest)

/-- Model of `iterNodes` from `rstat.go`: process the top entry of the stack. -/
def iterNodes (pred : Int → Record → Bool) (stack : List (List ProcNode)) :
    Option ProcNode × List (List ProcNode) :=
  match stack with
  | [] => (none, [])
  | top :: rest => iterTop pred top rest

/-- The termination measure of the `Find` driver loop: twice the number of
stacked nodes plus the stack depth. -/
def stackMeasure (stack : List (List ProcNode)) : Nat :=
  2 * stackSize stack + stack.length

theorem iterTop_measure (pred : Int → Record → Bool) :
    ∀ (top : List ProcNode) (rest : List (List ProcNode)) (n : Option ProcNode)
      (s' : List (List ProcNode)), iterTop pred top rest = (n, s') → s' ≠ [] →
      stackMeasure s' < stackMeasure (top :: rest) := by
  intro top
  induction top with
  | nil =>
    intro rest n s' h hne
    simp only [iterTop, Prod.mk.injEq] at h
    rw [← h.2]
    simp only [stackMeasure, stackSize, sizeF, List.length_cons]
    omega
  | cons nd ns ih =>
    intro rest n s' h hne
    obtain ⟨p, st, cs⟩ := nd
    simp only [iterTop] at h
    by_cases hp : pred p st
    · simp only [hp, if_true, Prod.mk.injEq] at h
      exact absurd h.2.symm hne
    · simp only [hp, if_false, Bool.false_eq_true] at h
      match cs, h with
      | [], h =>
        have := ih rest n s' h hne
        simp only [stackMeasure, stackSize, sizeF, List.length_cons] at this ⊢
        omega
      | c :: cs', h =>
        simp only [Prod.mk.injEq] at h
        rw [← h.2]
        simp only [stackMeasure, stackSize, sizeF, List.length_cons]
        omega

theorem iterNodes_measure (pred : Int → Record → Bool)
    (stack : List (List ProcNode)) (n : Option ProcNode)
    (s' : List (List ProcNode)) (h : iterNodes pred stack = (n, s')) (hne : s' ≠ []) :
    stackMeasure s' < stackMeasure stack := by
  cases stack with
  | nil =>
    simp only [iterNodes, Prod.mk.injEq] at h
    exact absurd h.2.symm hne
  | cons top rest => exact iterTop_measure pred top rest n s' h hne

/-- Model of the driver loop inside `ProcNode.Find`: run `iterNodes` until the
stack is exhausted or a node was found. -/
def findLoop (pred : Int → Record → Bool) (stack : List (List ProcNode)) :
    Option ProcNode :=
  if h : (iterNodes pred stack).2.isEmpty then (iterNodes pred stack).1
  else findLoop pred (iterNodes pred stack).2
termination_by stackMeasure stack
decreasing_by
  exact iterNodes_measure pred stack (iterNodes pred stack).1
    (iterNodes pred stack).2 rfl (by simpa using h)

/-- Model of `ProcNode.Find` from `rstat.go`: test the root, then run the
explicit-stack depth-first search over the children. -/
def ProcNode.Find (root : ProcNode) (pred : Int → Record → Bool) : Option ProcNode :=
  if pred root.pid root.stats then some root
  else findLoop pred [root.children]

/-- Instrumented variant of `iterTop` that records each node on which the
predicate is invoked, in invocation order. -/
def iterTopT (pred : Int → Record → Bool) :
    List ProcNode → List (List ProcNode) → List ProcNode →
      Option ProcNode × List (List ProcNode) × List ProcNode
  | [], rest, acc => (none, rest, acc)
  | .mk p s cs :: ns, rest, acc =>
    if pred p s then (some (.mk p s cs), [], acc ++ [ProcNode.mk p s cs])
    else
      match cs with
      | [] => iterTopT pred ns rest (acc ++ [ProcNode.mk p s cs])
      | c :: cs' => (none, (c :: cs') :: ns :: rest, acc ++ [ProcNode.mk p s cs])

/-- Instrumented variant of `iterNodes`. -/
def iterNodesT (pred : Int → Record → Bool) (stack : List (List ProcNode))
    (acc : List ProcNode) :
    Option ProcNode × List (List ProcNode) × List ProcNode :=
  match stack with
  | [] => (none, [], acc)
  | top :: rest => iterTopT pred top rest acc

theorem iterTopT_shape (pred : Int → Record → Bool) :
    ∀ (top : List ProcNode) (rest : List (List ProcNode)) (acc : List ProcNode),
      (iterTopT pred top rest acc).1 = (iterTop pred top rest).1 ∧
      (iterTopT pred top rest acc).2.1 = (iterTop pred top rest).2 := by
  intro top
  induction top with
  | nil => intro rest acc; simp [iterTopT, iterTop]
  | cons nd ns ih =>
    intro rest acc
    obtain ⟨p, st, cs⟩ := nd
    simp only [iterTopT, iterTop]
    by_cases hp : pred p st
    · simp [hp]
    · simp only [hp, if_false, Bool.false_eq_true]
      match cs with
      | [] => exact ih rest (acc ++ [ProcNode.mk p st []])
      | c :: cs' => simp

/-- Instrumented variant of `findLoop`, returning the result together with the
sequence of predicate invocations. -/
def findLoopT (pred : Int → Record → Bool) (stack : List (List ProcNode))
    (acc : List ProcNode) : Option ProcNode × List ProcNode :=
  if h : (iterNodesT pred stack acc).2.1.isEmpty then
    ((iterNodesT pred stack acc).1, (iterNodesT pred stack acc).2.2)
  else findLoopT pred (iterNodesT pred stack acc).2.1 (iterNodesT pred stack acc).2.2
termination_by stackMeasure stack
decreasing_by
  refine iterNodes_measure pred stack (iterNodes pred stack).1
    (iterNodesT pred stack acc).2.1 ?_ ?_
  · cases stack with
    | nil => simp [iterNodes, iterNodesT]
    | cons top rest =>
      have h2 := (iterTopT_shape pred top rest acc).2
      simp only [iterNodes, iterNodesT] at h2 ⊢
      rw [h2]
  · simpa using h

/-- Instrumented variant of `ProcNode.Find`: the search result together with
the list of nodes the predicate was applied to, in order. -/
def ProcNode.FindT (root : ProcNode) (pred : Int → Record → Bool) :
    Option ProcNode × List ProcNode :=
  if pred root.pid root.stats then (some root, [root])
  else findLoopT pred [root.children] [root]

/-- Model of `ProcNode.ForEach` from `rstat.go`: `ForEach fn` is `Find` with a
predicate that invokes `fn` and returns `false`; the observable behaviour of
`ForEach` is the sequence of `fn` invocations, i.e. the instrumentation trace
of `Find` under the constantly false predicate. -/
def ProcNode.ForEachVisits (root : ProcNode) : List ProcNode :=
  (root.FindT (fun _ _ => false)).2

/-! ### Error mapping (`mapCmdError`, `cutErrPrefix`) -/

/-- Model of `matchErrPrefix` from `rstat.go`, the anchored regular expression
of shape: one or more ASCII letters, a colon, one or more RE2 whitespace
characters.  Returns the end position of the match (Go
`FindStringIndex(msg)[1]`) or `none` when the expression does not match; both
quantifiers are greedy and the involved characters are single-byte, so the
byte position equals the character position. -/
def matchErrPfx (s : String) : Option Nat :=
  if (s.data.takeWhile Char.isAlpha).isEmpty then none
  else
    match s.data.drop (s.data.takeWhile Char.isAlpha).length with
    | ':' :: r2 =>
      if (r2.takeWhile re2Space).isEmpty then none
      else some ((s.data.takeWhile Char.isAlpha).length + 1 + (r2.takeWhile re2Space).length)
    | _ => none

/-- Model of `cutErrPrefix` from `rstat.go`: drop the matched leading
word-plus-colon prefix, if any. -/
def cutErrPfx (msg : String) : String :=
  match matchErrPfx msg with
  | some e => String.mk (msg.data.drop e)
  | none => msg

/-- The byte position of the first newline in a string (Go
`strings.IndexRune(msg, 0x0A)` without the `-1` encoding).  The newline is a
single-byte rune, and a byte position is 0 exactly when the character
position is 0, which is the only use the caller makes of the value; the model
therefore returns the character position. -/
def firstNewlineIdx (s : String) : Option Nat :=
  s.data.findIdx? (fun c => c == '\n')

/-- The error carried by the `strit` line source into `psParser.Done`: either
an `ExitError` holding the external command's standard-error text, or any
other error with its rendered message. -/
inductive CmdErr where
  | exit (stderr : String) : CmdErr
  | plain (msg : String) : CmdErr
deriving DecidableEq, Repr

/-- Model of `mapCmdError` from `rstat.go`: for an `ExitError` the diagnostic
is truncated to its first line and trimmed, but only when the first newline
sits at a positive index; then the leading word-plus-colon prefix is cut.
Any other error only gets the prefix cut. -/
def mapCmdError : CmdErr → String
  | .exit stderr =>
    let msg :=
      match firstNewlineIdx stderr with
      | some i =>
        if 0 < i then goTrimSpace (String.mk (stderr.data.take i)) else stderr
      | none => stderr
    cutErrPfx msg
  | .plain msg => cutErrPfx msg

/-! ### Association-list lemmas -/

theorem rget_rinsert (m : Record) (k v k' : String) :
    rget (rinsert m k v) k' = if k' = k then v else rget m k' := by
  induction m with
  | nil =>
    by_cases h : k' = k
    · subst h; simp [rinsert, rget, List.find?]
    · have : (k == k') = false := by simp [beq_iff_eq]; exact fun a => h a.symm
      simp [rinsert, rget, List.find?, this, h]
  | cons e es ih =>
    by_cases he : e.1 = k
    · have he' : (e.1 == k) = true := by simp [beq_iff_eq, he]
      by_cases h : k' = k
      · subst h
        simp [rinsert, he', rget, List.find?]
      · have hkk : (k == k') = false := by simp [beq_iff_eq]; exact fun a => h a.symm
        have hek : (e.1 == k') = false := by rw [he]; exact hkk
        simp [rinsert, he', rget, List.find?, hkk, hek, h]
    · have he' : (e.1 == k) = false := by simp [beq_iff_eq, he]
      by_cases hk' : e.1 = k'
      · have hek : (e.1 == k') = true := by simp [beq_iff_eq, hk']
        have hne : ¬ k' = k := fun a => he (hk'.symm ▸ a)
        simp [rinsert, he', rget, List.find?, hek, hne]
      · have hek : (e.1 == k') = false := by simp [beq_iff_eq, hk']
        simp only [rinsert, he', Bool.false_eq_true, if_false]
        simp only [rget, List.find?, hek] at ih ⊢
        exact ih

theorem rget_foldl_rinsert (pairs : List (String × String)) (m0 : Record) (k : String) :
    rget (pairs.foldl (fun m p => rinsert m p.1 p.2) m0) k =
      match pairs.reverse.find? (fun p => p.1 == k) with
      | some p => p.2
      | none => rget m0 k := by
  induction pairs generalizing m0 with
  | nil => simp
  | cons a ps ih =>
    simp only [List.foldl_cons, List.reverse_cons, List.find?_append]
    rw [ih]
    cases hf : ps.reverse.find? (fun p => p.1 == k) with
    | some p => simp [Option.orElse, hf]
    | none =>
      simp only [hf, Option.none_orElse]
      rw [rget_rinsert]
      by_cases h : k = a.1
      · simp [List.find?, h]
      · have : (a.1 == k) = false := by simp [beq_iff_eq]; exact fun x => h x.symm
        simp [List.find?, this, h]

theorem assoc_unique_mem {α β : Type} [BEq α] [LawfulBEq α]
    (l : List (α × β)) (h : (l.map Prod.fst).Nodup) (k : α) (a : β)
    (hm : (k, a) ∈ l) : ∀ b, (k, b) ∈ l → b = a := by
  intro b hb
  induction l with
  | nil => simp at hm
  | cons e es ih =>
    simp only [List.map_cons, List.nodup_cons] at h
    rcases List.mem_cons.mp hm with h1 | h1
    · rcases List.mem_cons.mp hb with h2 | h2
      · rw [← h1] at h2; exact (Prod.mk.injEq _ _ _ _ ▸ h2).2
      · exfalso
        have hmem : k ∈ es.map Prod.fst := List.mem_map.mpr ⟨(k, b), h2, rfl⟩
        exact h.1 (show e.1 ∈ _ by rw [← h1]; exact hmem)
    · rcases List.mem_cons.mp hb with h2 | h2
      · exfalso
        have hmem : k ∈ es.map Prod.fst := List.mem_map.mpr ⟨(k, a), h1, rfl⟩
        exact h.1 (show e.1 ∈ _ by rw [← h2]; exact hmem)
      · exact ih h.2 h1 h2

theorem assoc_find?_of_nodup {β : Type}
    (l : List (String × β)) (h : (l.map Prod.fst).Nodup) (k : String) (a : β)
    (hm : (k, a) ∈ l) : l.find? (fun p => p.1 == k) = some (k, a) := by
  have hsome : (l.find? (fun p => p.1 == k)).isSome := by
    rw [List.find?_isSome]
    exact ⟨(k, a), hm, by simp⟩
  obtain ⟨p0, hp0⟩ := Option.isSome_iff_exists.mp hsome
  have hmem := List.mem_of_find?_eq_some hp0
  have hpred := List.find?_some hp0
  have hk : p0.1 = k := by simpa using hpred
  obtain ⟨p1, p2⟩ := p0
  simp only at hk
  subst hk
  have := assoc_unique_mem l h p1 a hm p2 hmem
  rw [hp0, this]

theorem idxLookup_idxInsert {α : Type} (g : List (Int × α)) (p : Int) (v : α) (q : Int) :
    idxLookup (idxInsert g p v) q = if q = p then some v else idxLookup g q := by
  induction g with
  | nil =>
    by_cases h : q = p
    · subst h; simp [idxInsert, idxLookup, List.find?]
    · have : (p == q) = false := by simp [beq_iff_eq]; exact fun a => h a.symm
      simp [idxInsert, idxLookup, List.find?, this, h]
  | cons e es ih =>
    by_cases he : e.1 = p
    · have he' : (e.1 == p) = true := by simp [beq_iff_eq, he]
      by_cases h : q = p
      · subst h
        simp [idxInsert, he', idxLookup, List.find?]
      · have hpq : (p == q) = false := by simp [beq_iff_eq]; exact fun a => h a.symm
        have heq : (e.1 == q) = false := by rw [he]; exact hpq
        simp [idxInsert, he', idxLookup, List.find?, hpq, heq, h]
    · have he' : (e.1 == p) = false := by simp [beq_iff_eq, he]
      by_cases hq : e.1 = q
      · have heq : (e.1 == q) = true := by simp [beq_iff_eq, hq]
        have hne : ¬ q = p := fun a => he (hq.symm ▸ a)
        simp [idxInsert, he', idxLookup, List.find?, heq, hne]
      · have heq : (e.1 == q) = false := by simp [beq_iff_eq, hq]
        simp only [idxInsert, he', Bool.false_eq_true, if_false]
        simp only [idxLookup, List.find?, heq] at ih ⊢
        exact ih

theorem idxInsert_mem {α : Type} (g : List (Int × α)) (p : Int) (v : α) (e : Int × α)
    (h : e ∈ idxInsert g p v) : e = (p, v) ∨ e ∈ g := by
  induction g with
  | nil => simpa [idxInsert] using h
  | cons a es ih =>
    by_cases ha : (a.1 == p) = true
    · simp only [idxInsert, ha, if_true] at h
      rcases List.mem_cons.mp h with h1 | h1
      · exact Or.inl h1
      · exact Or.inr (List.mem_cons.mpr (Or.inr h1))
    · simp only [idxInsert, ha, Bool.false_eq_true, if_false] at h
      rcases List.mem_cons.mp h with h1 | h1
      · exact Or.inr (List.mem_cons.mpr (Or.inl h1))
      · rcases ih h1 with h2 | h2
        · exact Or.inl h2
        · exact Or.inr (List.mem_cons.mpr (Or.inr h2))

theorem idxInsert_keys_mem {α : Type} (g : List (Int × α)) (p : Int) (v : α) (q : Int) :
    q ∈ (idxInsert g p v).map Prod.fst ↔ q = p ∨ q ∈ g.map Prod.fst := by
  induction g with
  | nil => simp [idxInsert, eq_comm]
  | cons a es ih =>
    by_cases ha : (a.1 == p) = true
    · have hap : a.1 = p := by simpa [beq_iff_eq] using ha
      rw [show idxInsert (a :: es) p v = if a.1 == p then (p, v) :: es else a :: idxInsert es p v from rfl]
      rw [if_pos ha]
      simp only [List.map_cons, List.mem_cons, hap]
      tauto
    · rw [show idxInsert (a :: es) p v = if a.1 == p then (p, v) :: es else a :: idxInsert es p v from rfl]
      rw [if_neg (by simpa using ha)]
      simp only [List.map_cons, List.mem_cons, ih]
      tauto

theorem idxInsert_nodup {α : Type} (g : List (Int × α)) (p : Int) (v : α)
    (h : (g.map Prod.fst).Nodup) : ((idxInsert g p v).map Prod.fst).Nodup := by
  induction g with
  | nil => simp [idxInsert]
  | cons a es ih =>
    simp only [List.map_cons, List.nodup_cons] at h
    by_cases ha : (a.1 == p) = true
    · have hap : a.1 = p := by simpa [beq_iff_eq] using ha
      simp only [idxInsert, ha, if_true, List.map_cons, List.nodup_cons]
      exact ⟨hap ▸ h.1, h.2⟩
    · have hap : ¬ a.1 = p := by simpa [beq_iff_eq] using ha
      simp only [idxInsert, ha, Bool.false_eq_true, if_false, List.map_cons,
        List.nodup_cons]
      refine ⟨?_, ih h.2⟩
      rw [idxInsert_keys_mem]
      rintro (h1 | h1)
      · exact hap h1
      · exact h.1 h1

theorem idxLookup_mem {α : Type} (l : List (Int × α)) (q : Int) (v : α)
    (h : idxLookup l q = some v) : (q, v) ∈ l := by
  unfold idxLookup at h
  cases hf : l.find? (fun e => e.1 == q) with
  | none => rw [hf] at h; exact absurd h (by simp)
  | some e =>
    rw [hf] at h
    have hmem := List.mem_of_find?_eq_some hf
    have hpred := List.find?_some hf
    have hk : e.1 = q := by simpa [beq_iff_eq] using hpred
    have hv : e.2 = v := by simpa using h
    have : e = (q, v) := Prod.ext hk hv
    exact this ▸ hmem

theorem idxLookup_of_mem_nodup {α : Type} (l : List (Int × α))
    (hnd : (l.map Prod.fst).Nodup) (q : Int) (v : α) (hm : (q, v) ∈ l) :
    idxLookup l q = some v := by
  have hsome : (l.find? (fun e => e.1 == q)).isSome := by
    rw [List.find?_isSome]
    exact ⟨(q, v), hm, by simp⟩
  obtain ⟨e, he⟩ := Option.isSome_iff_exists.mp hsome
  have hmem := List.mem_of_find?_eq_some he
  have hpred := List.find?_some he
  have hk : e.1 = q := by simpa [beq_iff_eq] using hpred
  obtain ⟨e1, e2⟩ := e
  simp only at hk
  subst hk
  have := assoc_unique_mem l hnd e1 v hm e2 hmem
  unfold idxLookup
  rw [he, this]

/-- Whether a record's `PID` field extracts to exactly the pid `q`. -/
def hasPid (r : Record) (q : Int) : Bool :=
  match getPid r "PID" with
  | .ok p => p == q
  | .error _ => false

/-- Whether a record's `PPID` field extracts to exactly the pid `q`. -/
def hasPpid (r : Record) (q : Int) : Bool :=
  match getPid r "PPID" with
  | .ok p => p == q
  | .error _ => false

theorem buildIdxGo_ok (records : List Record) :
    ∀ idx0, (∀ r ∈ records, ∃ p, getPid r "PID" = .ok p) →
      ∃ idx, buildIdxGo idx0 records = .ok idx := by
  induction records with
  | nil => intro idx0 _; exact ⟨idx0, rfl⟩
  | cons r rs ih =>
    intro idx0 h
    obtain ⟨p, hp⟩ := h r (List.mem_cons_self r rs)
    obtain ⟨idx, hidx⟩ := ih (idxInsert idx0 p r) (fun r' hr' => h r' (List.mem_cons_of_mem r hr'))
    refine ⟨idx, ?_⟩
    rw [buildIdxGo, hp]
    exact hidx

theorem buildIdxGo_lookup (records : List Record) :
    ∀ idx0 idx, buildIdxGo idx0 records = .ok idx →
      ∀ q, idxLookup idx q =
        match records.reverse.find? (fun r => hasPid r q) with
        | some r => some r
        | none => idxLookup idx0 q := by
  induction records with
  | nil =>
    intro idx0 idx h q
    rw [buildIdxGo] at h
    cases h
    simp
  | cons r rs ih =>
    intro idx0 idx h q
    rw [buildIdxGo] at h
    cases hp : getPid r "PID" with
    | error e =>
      rw [hp] at h
      exact absurd h (by simp)
    | ok p =>
      rw [hp] at h
      have := ih (idxInsert idx0 p r) idx h q
      rw [this]
      simp only [List.reverse_cons, List.find?_append]
      cases hf : rs.reverse.find? (fun r => hasPid r q) with
      | some r' => simp [Option.orElse, hf]
      | none =>
        simp only [hf, Option.none_orElse]
        by_cases hq : q = p
        · subst hq
          have : hasPid r q = true := by simp [hasPid, hp]
          simp [List.find?, this, idxLookup_idxInsert]
        · have : hasPid r q = false := by
            simp only [hasPid, hp, beq_iff_eq]
            simp
            exact fun a => hq a.symm
          simp [List.find?, this, idxLookup_idxInsert, hq]

theorem buildIdxGo_nodup (records : List Record) :
    ∀ idx0 idx, buildIdxGo idx0 records = .ok idx →
      (idx0.map Prod.fst).Nodup → (idx.map Prod.fst).Nodup := by
  induction records with
  | nil =>
    intro idx0 idx h hnd
    rw [buildIdxGo] at h
    cases h
    exact hnd
  | cons r rs ih =>
    intro idx0 idx h hnd
    rw [buildIdxGo] at h
    cases hp : getPid r "PID" with
    | error e => rw [hp] at h; exact absurd h (by simp)
    | ok p =>
      rw [hp] at h
      exact ih (idxInsert idx0 p r) idx h (idxInsert_nodup idx0 p r hnd)

theorem buildIdxGo_mem (records : List Record) :
    ∀ idx0 idx, buildIdxGo idx0 records = .ok idx →
      ∀ e ∈ idx, e.2 ∈ records ∨ e ∈ idx0 := by
  induction records with
  | nil =>
    intro idx0 idx h e he
    rw [buildIdxGo] at h
    cases h
    exact Or.inr he
  | cons r rs ih =>
    intro idx0 idx h e he
    rw [buildIdxGo] at h
    cases hp : getPid r "PID" with
    | error er => rw [hp] at h; exact absurd h (by simp)
    | ok p =>
      rw [hp] at h
      rcases ih (idxInsert idx0 p r) idx h e he with h1 | h1
      · exact Or.inl (List.mem_cons_of_mem r h1)
      · rcases idxInsert_mem idx0 p r e h1 with h2 | h2
        · exact Or.inl (h2 ▸ List.mem_cons_self r rs)
        · exact Or.inr h2

/-- The pids appended (in index order) to the child list of the node with pid
`p` by the linking pass over the entries `l`. -/
def childrenAdds (l : List (Int × Record)) (p : Int) : List Int :=
  (l.filter (fun e => hasPpid e.2 p)).map Prod.fst

theorem idxLookup_map_graph (idx : List (Int × Record)) (q : Int) :
    idxLookup (idx.map (fun e => (e.1, (⟨e.1, e.2, []⟩ : PN)))) q =
      (idxLookup idx q).map (fun st => (⟨q, st, []⟩ : PN)) := by
  induction idx with
  | nil => simp [idxLookup]
  | cons e es ih =>
    by_cases he : (e.1 == q) = true
    · have heq : e.1 = q := by simpa [beq_iff_eq] using he
      simp [idxLookup, List.find?, he, heq]
    · simp only [List.map_cons, idxLookup, List.find?, he]
      simpa [idxLookup] using ih

theorem idxLookup_addChild (g : BGraph) (par c q : Int) :
    idxLookup (addChild g par c) q =
      if q = par then
        (idxLookup g q).map (fun n => ⟨n.pid, n.stats, n.children ++ [c]⟩)
      else idxLookup g q := by
  induction g with
  | nil => simp [addChild, idxLookup, List.find?]
  | cons e es ih =>
    by_cases hp : (e.1 == par) = true
    · have hep : e.1 = par := by simpa [beq_iff_eq] using hp
      by_cases hq : q = par
      · subst hq
        have heq : (e.1 == q) = true := by simp [beq_iff_eq, hep]
        simp [addChild, idxLookup, List.find?, hp, heq]
      · have heq : (e.1 == q) = false := by
          simp [beq_iff_eq, hep]
          exact fun a => hq a.symm
        simp only [addChild, List.map_cons, hp, if_true, idxLookup, List.find?, heq]
        simpa [addChild, idxLookup, hq] using ih
    · by_cases heq : (e.1 == q) = true
      · have h1 : e.1 = q := by simpa [beq_iff_eq] using heq
        have hq : ¬ q = par := by
          intro a
          rw [a] at h1
          simp [beq_iff_eq, h1] at hp
        simp [addChild, idxLookup, List.find?, hp, heq, hq]
      · simp only [addChild, List.map_cons, hp, Bool.false_eq_true, if_false,
          idxLookup, List.find?, heq]
        simpa [addChild, idxLookup] using ih

theorem linkGo_ok (l : List (Int × Record)) :
    ∀ g, (∀ e ∈ l, ∃ q, getPid e.2 "PPID" = .ok q) → ∃ g', linkGo g l = .ok g' := by
  induction l with
  | nil => intro g _; exact ⟨g, rfl⟩
  | cons e es ih =>
    intro g h
    obtain ⟨u, hu⟩ := h e (List.mem_cons_self e es)
    obtain ⟨g', hg'⟩ := ih (addChild g u e.1) (fun e' he' => h e' (List.mem_cons_of_mem e he'))
    exact ⟨g', by rw [linkGo, hu]; exact hg'⟩

theorem linkGo_lookup (l : List (Int × Record)) :
    ∀ g g', linkGo g l = .ok g' →
      ∀ p, idxLookup g' p =
        (idxLookup g p).map (fun n => ⟨n.pid, n.stats, n.children ++ childrenAdds l p⟩) := by
  induction l with
  | nil =>
    intro g g' h p
    rw [linkGo] at h
    cases h
    cases hg : idxLookup g p with
    | none => simp
    | some n => simp [childrenAdds]
  | cons e es ih =>
    intro g g' h p
    rw [linkGo] at h
    cases hu : getPid e.2 "PPID" with
    | error er => rw [hu] at h; exact absurd h (by simp)
    | ok u =>
      rw [hu] at h
      have := ih (addChild g u e.1) g' h p
      rw [this, idxLookup_addChild]
      by_cases hp : p = u
      · subst hp
        have hpp : hasPpid e.2 p = true := by simp [hasPpid, hu]
        simp only [if_true, childrenAdds, List.filter_cons, hpp, List.map_cons]
        cases idxLookup g p with
        | none => simp
        | some n => simp [childrenAdds]
      · have hpp : hasPpid e.2 p = false := by
          simp only [hasPpid, hu, beq_iff_eq]
          simp
          exact fun a => hp a.symm
        simp only [if_neg hp, childrenAdds, List.filter_cons, hpp]
        cases idxLookup g p with
        | none => simp
        | some n => simp [childrenAdds]

theorem linkPass_lookup (idx : List (Int × Record)) (g : BGraph)
    (h : linkPass idx = .ok g) (p : Int) :
    idxLookup g p = (idxLookup idx p).map (fun st => ⟨p, st, childrenAdds idx p⟩) := by
  unfold linkPass at h
  rw [linkGo_lookup idx _ g h p, idxLookup_map_graph]
  cases idxLookup idx p with
  | none => simp
  | some st => simp

/-- Joint characterization of a successful `buildProcTree` run: the index pass
and the linking pass succeeded, the index has pairwise-distinct pids, every
node of the returned graph is the wrapper of its index record with exactly the
linked children, and the returned root is the node of pid 1. -/
theorem buildProcTree_ok_char (records : List Record) (root : PN) (g : BGraph)
    (h : buildProcTree records = .ok (root, g)) :
    ∃ idx, buildIdx records = .ok idx ∧ linkPass idx = .ok g ∧
      (idx.map Prod.fst).Nodup ∧
      (∀ p, idxLookup g p = (idxLookup idx p).map (fun st => ⟨p, st, childrenAdds idx p⟩)) ∧
      idxLookup g 1 = some root := by
  unfold buildProcTree at h
  split at h
  · exact absurd h (by simp)
  · rename_i idx hidx
    split at h
    · exact absurd h (by simp)
    · rename_i g0 hlink
      split at h
      · rename_i root0 hroot
        have hpair : root0 = root ∧ g0 = g := by
          have := Except.ok.inj h
          exact ⟨congrArg Prod.fst this, congrArg Prod.snd this⟩
        obtain ⟨h1, h2⟩ := hpair
        subst h1
        subst h2
        refine ⟨idx, hidx, hlink, ?_, fun p => linkPass_lookup idx g0 hlink p, hroot⟩
        exact buildIdxGo_nodup records [] idx hidx (by simp)
      · exact absurd h (by simp)

/-! ### Parent chains and reachability in the built graph -/

/-- The parent pid of the node with pid `q` in the built graph, as the linking
pass extracts it: `none` when `q` is not in the table or its `PPID` metric
does not extract. -/
def pp (g : BGraph) (q : Int) : Option Int :=
  match idxLookup g q with
  | some n =>
    match getPid n.stats "PPID" with
    | .ok u => some u
    | .error _ => none
  | none => none

/-- `k`-fold iteration of the parent map: the `k`-th ancestor pid of `p`. -/
def ppIter (g : BGraph) : Nat → Int → Option Int
  | 0, p => some p
  | k + 1, p =>
    match pp g p with
    | some u => ppIter g k u
    | none => none

/-- One child step in the returned structure: `q` is listed among the children
of the node of `p`. -/
def childEdge (g : BGraph) (p q : Int) : Prop :=
  ∃ n, idxLookup g p = some n ∧ q ∈ n.children

/-- Reachability from the root node (pid 1) along child lists: the set of
nodes a full traversal of the returned tree visits. -/
def ReachRoot (g : BGraph) (p : Int) : Prop :=
  Relation.ReflTransGen (childEdge g) 1 p

theorem ppIter_add (g : BGraph) (i j : Nat) :
    ∀ p, ppIter g (i + j) p =
      match ppIter g i p with
      | some u => ppIter g j u
      | none => none := by
  induction i with
  | zero => intro p; simp [ppIter]
  | succ i ih =>
    intro p
    have : i + 1 + j = (i + j) + 1 := by omega
    rw [this]
    show (match pp g p with
      | some u => ppIter g (i + j) u
      | none => none) = _
    cases hp : pp g p with
    | none => simp [ppIter, hp]
    | some u =>
      simp only
      rw [ih u]
      show _ = (match (match pp g p with
        | some u => ppIter g i u
        | none => none) with
        | some w => ppIter g j w
        | none => none)
      rw [hp]

theorem pp_eq_some_iff (g : BGraph) (q u : Int) :
    pp g q = some u ↔ ∃ m, idxLookup g q = some m ∧ getPid m.stats "PPID" = .ok u := by
  unfold pp
  cases h : idxLookup g q with
  | none => simp
  | some m =>
    show (match getPid m.stats "PPID" with
        | Except.ok u => some u
        | Except.error _ => none) = some u ↔
      ∃ m2, some m = some m2 ∧ getPid m2.stats "PPID" = Except.ok u
    cases hg : getPid m.stats "PPID" with
    | ok w =>
      constructor
      · intro hw
        have hwu : w = u := by simpa using hw
        exact ⟨m, rfl, hwu ▸ hg⟩
      · rintro ⟨m2, hm2, hg2⟩
        have hm : m2 = m := by simpa using hm2.symm
        rw [hm, hg] at hg2
        exact congrArg some (Except.ok.inj hg2)
    | error er =>
      constructor
      · intro hw
        exact absurd hw (by simp)
      · rintro ⟨m2, hm2, hg2⟩
        have hm : m2 = m := by simpa using hm2.symm
        rw [hm, hg] at hg2
        exact absurd hg2 (by simp)

theorem pp_isSome_lookup (g : BGraph) (q u : Int) (h : pp g q = some u) :
    (idxLookup g q).isSome := by
  obtain ⟨m, hm, -⟩ := (pp_eq_some_iff g q u).mp h
  rw [hm]
  rfl

theorem ppIter_succ_iff (g : BGraph) (k : Nat) (p r : Int) :
    ppIter g (k + 1) p = some r ↔ ∃ u, pp g p = some u ∧ ppIter g k u = some r := by
  show (match pp g p with
    | some u => ppIter g k u
    | none => none) = some r ↔ _
  cases h : pp g p with
  | none => simp
  | some u =>
    constructor
    · intro hh
      exact ⟨u, rfl, hh⟩
    · rintro ⟨w, hw, hww⟩
      have : u = w := by simpa using hw
      rw [this]
      exact hww

theorem childEdge_char (g : BGraph) (idx : List (Int × Record))
    (hnd : (idx.map Prod.fst).Nodup)
    (hchar : ∀ p, idxLookup g p =
      (idxLookup idx p).map (fun st => ⟨p, st, childrenAdds idx p⟩))
    (p q : Int) :
    childEdge g p q ↔ (∃ n, idxLookup g p = some n) ∧ pp g q = some p := by
  constructor
  · rintro ⟨n, hn, hq⟩
    refine ⟨⟨n, hn⟩, ?_⟩
    have hcp := hchar p
    rw [hn] at hcp
    cases hip : idxLookup idx p with
    | none => rw [hip] at hcp; exact absurd hcp (by simp)
    | some st =>
      rw [hip] at hcp
      have hne : n = ⟨p, st, childrenAdds idx p⟩ := by
        simpa using hcp
      rw [hne] at hq
      simp only [childrenAdds, List.mem_map, List.mem_filter] at hq
      obtain ⟨e, ⟨hemem, hppid⟩, heq⟩ := hq
      have hmem : (q, e.2) ∈ idx := by
        have : e = (q, e.2) := Prod.ext heq rfl
        exact this ▸ hemem
      have hlq : idxLookup idx q = some e.2 := idxLookup_of_mem_nodup idx hnd q e.2 hmem
      unfold hasPpid at hppid
      cases hpp : getPid e.2 "PPID" with
      | error er => rw [hpp] at hppid; exact absurd hppid (by simp)
      | ok u =>
        rw [hpp] at hppid
        have hup : u = p := by simpa [beq_iff_eq] using hppid
        rw [pp_eq_some_iff]
        refine ⟨⟨q, e.2, childrenAdds idx q⟩, ?_, ?_⟩
        · rw [hchar q, hlq]
          rfl
        · show getPid e.2 "PPID" = Except.ok p
          rw [hpp, hup]
  · rintro ⟨⟨n, hn⟩, hpp⟩
    obtain ⟨m, hgq, hget⟩ := (pp_eq_some_iff g q p).mp hpp
    have hcq := hchar q
    rw [hgq] at hcq
    cases hiq : idxLookup idx q with
    | none => rw [hiq] at hcq; exact absurd hcq (by simp)
    | some stq =>
      rw [hiq] at hcq
      have hm : m = ⟨q, stq, childrenAdds idx q⟩ := by simpa using hcq
      have hstats : m.stats = stq := by rw [hm]
      rw [hstats] at hget
      have hmemq : (q, stq) ∈ idx := idxLookup_mem idx q stq hiq
      have hqchild : q ∈ childrenAdds idx p := by
        simp only [childrenAdds, List.mem_map, List.mem_filter]
        exact ⟨(q, stq), ⟨hmemq, by simp [hasPpid, hget]⟩, rfl⟩
      refine ⟨n, hn, ?_⟩
      have hcp := hchar p
      rw [hn] at hcp
      cases hip : idxLookup idx p with
      | none => rw [hip] at hcp; exact absurd hcp (by simp)
      | some stp =>
        rw [hip] at hcp
        have : n = ⟨p, stp, childrenAdds idx p⟩ := by simpa using hcp
        rw [this]
        exact hqchild

theorem reachRoot_iff (g : BGraph) (idx : List (Int × Record))
    (hnd : (idx.map Prod.fst).Nodup)
    (hchar : ∀ p, idxLookup g p =
      (idxLookup idx p).map (fun st => ⟨p, st, childrenAdds idx p⟩))
    (root : PN) (hroot : idxLookup g 1 = some root) (p : Int) :
    ReachRoot g p ↔ ((idxLookup g p).isSome ∧ ∃ k, ppIter g k p = some 1) := by
  constructor
  · intro h
    induction h with
    | refl => exact ⟨by simp [hroot], 0, rfl⟩
    | tail hab hbc ih =>
      rename_i b c
      have hedge := (childEdge_char g idx hnd hchar b c).mp hbc
      obtain ⟨k, hk⟩ := ih.2
      exact ⟨pp_isSome_lookup g c b hedge.2, k + 1,
        (ppIter_succ_iff g k c 1).mpr ⟨b, hedge.2, hk⟩⟩
  · rintro ⟨hsome, k, hk⟩
    induction k generalizing p with
    | zero =>
      have : p = 1 := by simpa [ppIter] using hk
      subst this
      exact Relation.ReflTransGen.refl
    | succ k ih =>
      obtain ⟨u, hpp, hk2⟩ := (ppIter_succ_iff g k p 1).mp hk
      have husome : (idxLookup g u).isSome := by
        cases k with
        | zero =>
          have : u = 1 := by simpa [ppIter] using hk2
          rw [this, hroot]
          rfl
        | succ k2 =>
          obtain ⟨w, hppu, -⟩ := (ppIter_succ_iff g k2 u 1).mp hk2
          exact pp_isSome_lookup g u w hppu
      exact Relation.ReflTransGen.tail (ih u husome hk2)
        ((childEdge_char g idx hnd hchar u p).mpr
          ⟨Option.isSome_iff_exists.mp husome, hpp⟩)

theorem transGen_ppIter (g : BGraph) (idx : List (Int × Record))
    (hnd : (idx.map Prod.fst).Nodup)
    (hchar : ∀ p, idxLookup g p =
      (idxLookup idx p).map (fun st => ⟨p, st, childrenAdds idx p⟩))
    (a b : Int) (h : Relation.TransGen (childEdge g) a b) :
    ∃ m, 1 ≤ m ∧ ppIter g m b = some a := by
  induction h with
  | single h1 =>
    rename_i c
    have hedge := (childEdge_char g idx hnd hchar a c).mp h1
    exact ⟨1, le_refl 1, (ppIter_succ_iff g 0 c a).mpr ⟨a, hedge.2, rfl⟩⟩
  | tail htg h1 ih =>
    rename_i b c
    obtain ⟨m, hm1, hmb⟩ := ih
    have hedge := (childEdge_char g idx hnd hchar b c).mp h1
    exact ⟨m + 1, by omega, (ppIter_succ_iff g m c a).mpr ⟨b, hedge.2, hmb⟩⟩

theorem reach_acyclic (g : BGraph) (idx : List (Int × Record))
    (hnd : (idx.map Prod.fst).Nodup)
    (hchar : ∀ p, idxLookup g p =
      (idxLookup idx p).map (fun st => ⟨p, st, childrenAdds idx p⟩))
    (root : PN) (hroot : idxLookup g 1 = some root)
    (hacyc : ∀ k, 1 ≤ k → ppIter g k 1 ≠ some 1)
    (p : Int) (hreach : ReachRoot g p) :
    ¬ Relation.TransGen (childEdge g) p p := by
  intro htg
  obtain ⟨-, k, hk⟩ := (reachRoot_iff g idx hnd hchar root hroot p).mp hreach
  obtain ⟨m, hm1, hmp⟩ := transGen_ppIter g idx hnd hchar p p htg
  have h1 : ppIter g (m + k) p = some 1 := by
    rw [ppIter_add, hmp]
    exact hk
  have h2 : ppIter g (k + m) p = ppIter g m 1 := by
    rw [ppIter_add, hk]
  rw [Nat.add_comm k m] at h2
  rw [h1] at h2
  exact hacyc m hm1 h2.symm

/-! ### Traversal correctness -/

/-- The concatenated pre-order listings of all forests on a traversal stack:
the nodes a continued search still has to visit, in visit order. -/
def flatS : List (List ProcNode) → List ProcNode
  | [] => []
  | top :: rest => preorderF top ++ flatS rest

/-- The predicate of `Find` lifted to nodes. -/
def nodePred (pred : Int → Record → Bool) : ProcNode → Bool :=
  fun n => pred n.pid n.stats

/-- The prefix of a list up to and including the first element satisfying the
predicate (the whole list when no element does): the sequence of predicate
invocations of a short-circuiting left-to-right search. -/
def upToMatch (p : ProcNode → Bool) : List ProcNode → List ProcNode
  | [] => []
  | x :: xs => if p x then [x] else x :: upToMatch p xs

theorem upToMatch_append_found (p : ProcNode → Bool) (a b : List ProcNode)
    (x : ProcNode) (h : a.find? p = some x) :
    upToMatch p (a ++ b) = upToMatch p a := by
  induction a with
  | nil => simp at h
  | cons y ys ih =>
    by_cases hy : p y
    · simp [upToMatch, hy]
    · rw [List.find?_cons_of_neg _ (by simpa using hy)] at h
      simp [upToMatch, hy, ih h]

theorem upToMatch_append_none (p : ProcNode → Bool) (a b : List ProcNode)
    (h : a.find? p = none) :
    upToMatch p (a ++ b) = a ++ upToMatch p b := by
  induction a with
  | nil => simp
  | cons y ys ih =>
    have hy : ¬ p y := by
      intro hh
      rw [List.find?_cons_of_pos _ hh] at h
      exact absurd h (by simp)
    rw [List.find?_cons_of_neg _ (by simpa using hy)] at h
    simp [upToMatch, hy, ih h]

theorem upToMatch_false (l : List ProcNode) :
    upToMatch (fun _ => false) l = l := by
  induction l with
  | nil => rfl
  | cons x xs ih => simp [upToMatch, ih]

theorem iterTop_some_empty (pred : Int → Record → Bool) :
    ∀ (top : List ProcNode) (rest : List (List ProcNode)) (nd : ProcNode)
      (s' : List (List ProcNode)), iterTop pred top rest = (some nd, s') → s' = [] := by
  intro top
  induction top with
  | nil =>
    intro rest nd s' h
    simp [iterTop] at h
  | cons n ns ih =>
    intro rest nd s' h
    obtain ⟨p, st, cs⟩ := n
    by_cases hp : pred p st
    · simp only [iterTop, hp, if_true, Prod.mk.injEq] at h
      exact h.2.symm
    · simp only [iterTop, hp, if_false, Bool.false_eq_true] at h
      match cs, h with
      | [], h => exact ih rest nd s' h
      | c :: cs2, h =>
        simp only [Prod.mk.injEq] at h
        exact absurd h.1 (by simp)

theorem iterTop_find (pred : Int → Record → Bool) :
    ∀ (top : List ProcNode) (rest : List (List ProcNode)),
      match iterTop pred top rest with
      | (some nd, _) =>
          (preorderF top ++ flatS rest).find? (nodePred pred) = some nd
      | (none, s') =>
          (preorderF top ++ flatS rest).find? (nodePred pred) =
            (flatS s').find? (nodePred pred) := by
  intro top
  induction top with
  | nil => intro rest; simp [iterTop, preorderF]
  | cons nd ns ih =>
    intro rest
    obtain ⟨p, st, cs⟩ := nd
    by_cases hp : pred p st
    · have : iterTop pred (ProcNode.mk p st cs :: ns) rest = (some (ProcNode.mk p st cs), []) := by
        simp [iterTop, hp]
      rw [this]
      have hnp : nodePred pred (ProcNode.mk p st cs) = true := by
        simp [nodePred, ProcNode.pid, ProcNode.stats, hp]
      simp only [preorderF, List.cons_append]
      rw [List.find?_cons_of_pos _ hnp]
    · have hnp : ¬ nodePred pred (ProcNode.mk p st cs) = true := by
        simp [nodePred, ProcNode.pid, ProcNode.stats, hp]
      match hcs : cs with
      | [] =>
        have hstep : iterTop pred (ProcNode.mk p st [] :: ns) rest = iterTop pred ns rest := by
          simp [iterTop, hp]
        rw [hstep]
        have := ih rest
        simp only [preorderF, List.cons_append, List.nil_append] at this ⊢
        cases hr : iterTop pred ns rest with
        | mk n s' =>
          rw [hr] at this
          cases n with
          | some nd2 =>
            simp only at this ⊢
            rw [List.find?_cons_of_neg _ hnp]
            exact this
          | none =>
            simp only at this ⊢
            rw [List.find?_cons_of_neg _ hnp]
            exact this
      | c :: cs2 =>
        have hstep : iterTop pred (ProcNode.mk p st (c :: cs2) :: ns) rest =
            (none, (c :: cs2) :: ns :: rest) := by
          simp [iterTop, hp]
        rw [hstep]
        simp only [preorderF, List.cons_append]
        rw [List.find?_cons_of_neg _ hnp]
        show ((preorderF (c :: cs2) ++ preorderF ns) ++ flatS rest).find? (nodePred pred) =
          (flatS ((c :: cs2) :: ns :: rest)).find? (nodePred pred)
        rw [List.append_assoc]
        rfl

theorem findLoop_find (pred : Int → Record → Bool) :
    ∀ (M : Nat) (stack : List (List ProcNode)), stackMeasure stack ≤ M →
      findLoop pred stack = (flatS stack).find? (nodePred pred) := by
  intro M
  induction M with
  | zero =>
    intro stack h
    cases stack with
    | nil =>
      rw [findLoop]
      simp [iterNodes, flatS]
    | cons top rest =>
      exfalso
      simp [stackMeasure] at h
  | succ M ih =>
    intro stack h
    rw [findLoop]
    cases stack with
    | nil => simp [iterNodes, flatS]
    | cons top rest =>
      have hspec := iterTop_find pred top rest
      cases hit : iterTop pred top rest with
      | mk n s' =>
        rw [hit] at hspec
        have hiter : iterNodes pred (top :: rest) = (n, s') := by
          simp [iterNodes, hit]
        cases n with
        | some nd =>
          have hs' : s' = [] := iterTop_some_empty pred top rest nd s' hit
          subst hs'
          simp only [hiter, List.isEmpty_nil, dite_true]
          exact hspec.symm ▸ (by simp [flatS, hspec])
        | none =>
          cases hs' : s' with
          | nil =>
            subst hs'
            simp only [hiter, List.isEmpty_nil, dite_true]
            simp only at hspec
            rw [show flatS (top :: rest) = preorderF top ++ flatS rest from rfl]
            rw [hspec]
            simp [flatS]
          | cons s1 ss =>
            subst hs'
            have hne : ((s1 :: ss : List (List ProcNode))).isEmpty = false := rfl
            simp only [hiter, hne, Bool.false_eq_true, dite_false]
            have hmu : stackMeasure (s1 :: ss) ≤ M := by
              have := iterNodes_measure pred (top :: rest) none (s1 :: ss) hiter (by simp)
              omega
            rw [ih (s1 :: ss) hmu]
            rw [show flatS (top :: rest) = preorderF top ++ flatS rest from rfl]
            rw [hspec]

theorem iterTopT_some_empty (pred : Int → Record → Bool)
    (top : List ProcNode) (rest : List (List ProcNode)) (acc : List ProcNode)
    (nd : ProcNode) (s' : List (List ProcNode)) (acc' : List ProcNode)
    (h : iterTopT pred top rest acc = (some nd, s', acc')) : s' = [] := by
  have hsh := iterTopT_shape pred top rest acc
  rw [h] at hsh
  cases hit : iterTop pred top rest with
  | mk n1 s1 =>
    rw [hit] at hsh
    simp only at hsh
    have : iterTop pred top rest = (some nd, s') := by
      rw [hit, ← hsh.1, ← hsh.2]
    exact iterTop_some_empty pred top rest nd s' this

theorem iterTopT_find (pred : Int → Record → Bool) :
    ∀ (top : List ProcNode) (rest : List (List ProcNode)) (acc : List ProcNode),
      match iterTopT pred top rest acc with
      | (some nd, _, acc') =>
          (preorderF top ++ flatS rest).find? (nodePred pred) = some nd ∧
          acc' = acc ++ upToMatch (nodePred pred) (preorderF top ++ flatS rest)
      | (none, s', acc') =>
          (preorderF top ++ flatS rest).find? (nodePred pred) =
            (flatS s').find? (nodePred pred) ∧
          ∃ vis, acc' = acc ++ vis ∧
            preorderF top ++ flatS rest = vis ++ flatS s' ∧
            vis.find? (nodePred pred) = none := by
  intro top
  induction top with
  | nil =>
    intro rest acc
    exact ⟨by rw [preorderF]; simp, [], by simp, by rw [preorderF], rfl⟩
  | cons nd ns ih =>
    intro rest acc
    obtain ⟨p, st, cs⟩ := nd
    by_cases hp : pred p st
    · have hstep : iterTopT pred (ProcNode.mk p st cs :: ns) rest acc =
          (some (ProcNode.mk p st cs), [], acc ++ [ProcNode.mk p st cs]) := by
        simp [iterTopT, hp]
      rw [hstep]
      have hnp : nodePred pred (ProcNode.mk p st cs) = true := by
        simp [nodePred, ProcNode.pid, ProcNode.stats, hp]
      simp only [preorderF, List.cons_append]
      refine ⟨List.find?_cons_of_pos _ hnp, ?_⟩
      simp [upToMatch, hnp]
    · have hnp : ¬ nodePred pred (ProcNode.mk p st cs) = true := by
        simp [nodePred, ProcNode.pid, ProcNode.stats, hp]
      match hcs : cs with
      | [] =>
        have hstep : iterTopT pred (ProcNode.mk p st [] :: ns) rest acc =
            iterTopT pred ns rest (acc ++ [ProcNode.mk p st []]) := by
          simp [iterTopT, hp]
        rw [hstep]
        have := ih rest (acc ++ [ProcNode.mk p st []])
        cases hr : iterTopT pred ns rest (acc ++ [ProcNode.mk p st []]) with
        | mk n1 rest' =>
          obtain ⟨s', acc'⟩ := rest'
          rw [hr] at this
          cases n1 with
          | some nd2 =>
            simp only at this ⊢
            obtain ⟨hfind, hacc⟩ := this
            constructor
            · simp only [preorderF, List.cons_append, List.nil_append]
              rw [List.find?_cons_of_neg _ hnp]
              exact hfind
            · rw [hacc]
              simp only [preorderF, List.cons_append, List.nil_append]
              rw [show upToMatch (nodePred pred)
                  (ProcNode.mk p st [] :: (preorderF ns ++ flatS rest)) =
                  ProcNode.mk p st [] :: upToMatch (nodePred pred)
                    (preorderF ns ++ flatS rest) by simp [upToMatch, hnp]]
              simp
          | none =>
            simp only at this ⊢
            obtain ⟨hfind, vis, hacc, hlist, hvis⟩ := this
            refine ⟨?_, ProcNode.mk p st [] :: vis, ?_, ?_, ?_⟩
            · simp only [preorderF, List.cons_append, List.nil_append]
              rw [List.find?_cons_of_neg _ hnp]
              exact hfind
            · rw [hacc]; simp
            · simp only [preorderF, List.cons_append, List.nil_append]
              rw [hlist]
            · rw [List.find?_cons_of_neg _ hnp]
              exact hvis
      | c :: cs2 =>
        have hstep : iterTopT pred (ProcNode.mk p st (c :: cs2) :: ns) rest acc =
            (none, (c :: cs2) :: ns :: rest, acc ++ [ProcNode.mk p st (c :: cs2)]) := by
          simp [iterTopT, hp]
        rw [hstep]
        simp only
        refine ⟨?_, [ProcNode.mk p st (c :: cs2)], rfl, ?_, ?_⟩
        · simp only [preorderF, List.cons_append]
          rw [List.find?_cons_of_neg _ hnp]
          show ((preorderF (c :: cs2) ++ preorderF ns) ++ flatS rest).find? (nodePred pred) =
            (flatS ((c :: cs2) :: ns :: rest)).find? (nodePred pred)
          rw [List.append_assoc]
          rfl
        · simp only [preorderF, List.cons_append, List.singleton_append, List.cons.injEq,
            true_and]
          show (preorderF (c :: cs2) ++ preorderF ns) ++ flatS rest =
            flatS ((c :: cs2) :: ns :: rest)
          rw [List.append_assoc]
          rfl
        · rw [List.find?_cons_of_neg _ hnp]
          rfl

theorem findLoopT_find (pred : Int → Record → Bool) :
    ∀ (M : Nat) (stack : List (List ProcNode)) (acc : List ProcNode),
      stackMeasure stack ≤ M →
      findLoopT pred stack acc =
        ((flatS stack).find? (nodePred pred),
          acc ++ upToMatch (nodePred pred) (flatS stack)) := by
  intro M
  induction M with
  | zero =>
    intro stack acc h
    cases stack with
    | nil =>
      rw [findLoopT]
      simp [iterNodesT, flatS, upToMatch]
    | cons top rest =>
      exfalso
      simp [stackMeasure] at h
  | succ M ih =>
    intro stack acc h
    rw [findLoopT]
    cases stack with
    | nil => simp [iterNodesT, flatS, upToMatch]
    | cons top rest =>
      have hspec := iterTopT_find pred top rest acc
      cases hit : iterTopT pred top rest acc with
      | mk n rest' =>
        obtain ⟨s', acc'⟩ := rest'
        rw [hit] at hspec
        have hiter : iterNodesT pred (top :: rest) acc = (n, s', acc') := by
          simp [iterNodesT, hit]
        cases n with
        | some nd =>
          have hs' : s' = [] := iterTopT_some_empty pred top rest acc nd s' acc' hit
          subst hs'
          simp only [hiter, List.isEmpty_nil, dite_true]
          obtain ⟨hfind, hacc⟩ := hspec
          rw [show flatS (top :: rest) = preorderF top ++ flatS rest from rfl]
          rw [hfind, hacc]
        | none =>
          obtain ⟨hfind, vis, hacc, hlist, hvis⟩ := hspec
          cases hs' : s' with
          | nil =>
            subst hs'
            simp only [hiter, List.isEmpty_nil, dite_true]
            rw [show flatS (top :: rest) = preorderF top ++ flatS rest from rfl, hfind,
              hacc, hlist]
            have : upToMatch (nodePred pred) (vis ++ flatS ([] : List (List ProcNode))) =
                vis ++ upToMatch (nodePred pred) (flatS ([] : List (List ProcNode))) :=
              upToMatch_append_none (nodePred pred) vis _ hvis
            rw [this]
            simp [flatS, upToMatch]
          | cons s1 ss =>
            subst hs'
            have hne : ((s1 :: ss : List (List ProcNode))).isEmpty = false := rfl
            simp only [hiter, hne, Bool.false_eq_true, dite_false]
            have hmu : stackMeasure (s1 :: ss) ≤ M := by
              have hsh := iterTopT_shape pred top rest acc
              rw [hit] at hsh
              cases hitp : iterTop pred top rest with
              | mk np sp =>
                rw [hitp] at hsh
                simp only at hsh
                have hplain : iterNodes pred (top :: rest) = (none, s1 :: ss) := by
                  simp only [iterNodes, hitp]
                  rw [← hsh.1, ← hsh.2]
                have := iterNodes_measure pred (top :: rest) none (s1 :: ss) hplain (by simp)
                omega
            rw [ih (s1 :: ss) acc' hmu]
            rw [show flatS (top :: rest) = preorderF top ++ flatS rest from rfl, hfind,
              hacc, hlist]
            have : upToMatch (nodePred pred) (vis ++ flatS (s1 :: ss)) =
                vis ++ upToMatch (nodePred pred) (flatS (s1 :: ss)) :=
              upToMatch_append_none (nodePred pred) vis _ hvis
            rw [this]
            simp

theorem Find_eq_preorder_find (root : ProcNode) (pred : Int → Record → Bool) :
    ProcNode.Find root pred = (preorder root).find? (nodePred pred) := by
  unfold ProcNode.Find
  by_cases hp : pred root.pid root.stats
  · rw [if_pos hp, show preorder root = root :: preorderF root.children from rfl,
      List.find?_cons_of_pos _ (by simpa [nodePred] using hp)]
  · rw [if_neg hp,
      findLoop_find pred (stackMeasure [root.children]) [root.children] (le_refl _),
      show preorder root = root :: preorderF root.children from rfl,
      List.find?_cons_of_neg _ (by simpa [nodePred] using hp)]
    simp [flatS]

theorem FindT_spec (root : ProcNode) (pred : Int → Record → Bool) :
    root.FindT pred =
      ((preorder root).find? (nodePred pred),
        upToMatch (nodePred pred) (preorder root)) := by
  unfold ProcNode.FindT
  by_cases hp : pred root.pid root.stats
  · rw [if_pos hp, show preorder root = root :: preorderF root.children from rfl,
      List.find?_cons_of_pos _ (by simpa [nodePred] using hp)]
    have : nodePred pred root = true := by simpa [nodePred] using hp
    simp [upToMatch, this]
  · rw [if_neg hp,
      findLoopT_find pred (stackMeasure [root.children]) [root.children] [root] (le_refl _),
      show preorder root = root :: preorderF root.children from rfl,
      List.find?_cons_of_neg _ (by simpa [nodePred] using hp)]
    have hf : flatS [root.children] = preorderF root.children := by simp [flatS]
    have hm : nodePred pred root = false := by simpa [nodePred] using hp
    rw [hf]
    simp [upToMatch, hm]

theorem ForEachVisits_eq (root : ProcNode) :
    ProcNode.ForEachVisits root = preorder root := by
  unfold ProcNode.ForEachVisits
  rw [FindT_spec]
  exact upToMatch_false (preorder root)

theorem preorderF_length : ∀ l : List ProcNode, (preorderF l).length = sizeF l
  | [] => by rw [preorderF, sizeF]; rfl
  | .mk p s cs :: ns => by
    simp only [preorderF, sizeF, List.length_cons, List.length_append]
    rw [preorderF_length cs, preorderF_length ns]
    omega

theorem preorder_length (root : ProcNode) : (preorder root).length = root.size := by
  rw [show preorder root = root :: preorderF root.children from rfl]
  simp [ProcNode.size, preorderF_length]
  omega

/-! ### Parser characterization -/

/-- Whether a data line is ill-shaped for a header of `h` columns: its capped
whitespace split does not produce exactly `h` fields. -/
def badRow (h : Nat) (l : String) : Bool :=
  (re2SplitCap l h).length != h

theorem readRows_spec (hdr : List String) :
    ∀ (ls : List String) (acc : List Record),
      (∀ l, ls.find? (badRow hdr.length) = some l →
        readRows hdr ls acc =
          .error (.rowShape (re2SplitCap l hdr.length).length hdr.length
            (re2SplitCap l hdr.length))) ∧
      (ls.find? (badRow hdr.length) = none →
        readRows hdr ls acc =
          .ok (acc ++ ls.map (fun l => zipRecord hdr (re2SplitCap l hdr.length)))) := by
  intro ls
  induction ls with
  | nil =>
    intro acc
    constructor
    · intro l h
      exact absurd h (by simp)
    · intro _
      simp [readRows]
  | cons l ls ih =>
    intro acc
    by_cases hb : badRow hdr.length l = true
    · have hne : (re2SplitCap l hdr.length).length ≠ hdr.length := by
        simpa [badRow] using hb
      constructor
      · intro l2 h2
        rw [List.find?_cons_of_pos _ hb] at h2
        have : l = l2 := by simpa using h2
        subst this
        simp [readRows, hne]
      · intro h2
        rw [List.find?_cons_of_pos _ hb] at h2
        exact absurd h2 (by simp)
    · have heq : (re2SplitCap l hdr.length).length = hdr.length := by
        simpa [badRow] using hb
      have hstep : readRows hdr (l :: ls) acc =
          readRows hdr ls (acc ++ [zipRecord hdr (re2SplitCap l hdr.length)]) := by
        simp [readRows, heq]
      constructor
      · intro l2 h2
        rw [List.find?_cons_of_neg _ (by simpa using hb)] at h2
        rw [hstep]
        exact (ih (acc ++ [zipRecord hdr (re2SplitCap l hdr.length)])).1 l2 h2
      · intro h2
        rw [List.find?_cons_of_neg _ (by simpa using hb)] at h2
        rw [hstep]
        rw [(ih (acc ++ [zipRecord hdr (re2SplitCap l hdr.length)])).2 h2]
        simp

theorem rget_zipRecord (hdr fields : List String) (hnd : hdr.Nodup)
    (hlen : hdr.length ≤ fields.length) (j : Nat) (hj : j < hdr.length) :
    rget (zipRecord hdr fields) (hdr.get ⟨j, hj⟩) =
      fields.get ⟨j, lt_of_lt_of_le hj hlen⟩ := by
  unfold zipRecord
  rw [rget_foldl_rinsert]
  have hjz : j < (List.zip hdr fields).length := by
    rw [List.length_zip]
    omega
  have hget : (List.zip hdr fields).get ⟨j, hjz⟩ =
      (hdr.get ⟨j, hj⟩, fields.get ⟨j, lt_of_lt_of_le hj hlen⟩) := by
    simp [List.get_zip]
  have hmem : (hdr.get ⟨j, hj⟩, fields.get ⟨j, lt_of_lt_of_le hj hlen⟩) ∈
      List.zip hdr fields := by
    rw [← hget]
    exact List.get_mem _ _ hjz
  have hkeys : ((List.zip hdr fields).reverse.map Prod.fst).Nodup := by
    rw [List.map_reverse]
    rw [List.map_fst_zip hdr fields hlen]
    exact List.nodup_reverse.mpr hnd
  have := assoc_find?_of_nodup ((List.zip hdr fields).reverse) hkeys
    (hdr.get ⟨j, hj⟩) (fields.get ⟨j, lt_of_lt_of_le hj hlen⟩)
    (by rw [List.mem_reverse]; exact hmem)
  rw [this]

/-! ### Small helpers for the `getPid` claims -/

theorem rget_of_rhas_false (m : Record) (k : String) (h : rhas m k = false) :
    rget m k = "" := by
  unfold rhas at h
  unfold rget
  cases hf : m.find? (fun p => p.1 == k) with
  | none => rfl
  | some p => rw [hf] at h; exact absurd h (by simp)

/-! ### Command-builder characterization -/

/-- The aliases under which the free-form command column may be requested. -/
def psAlias (c : String) : Bool :=
  c == "args" || c == "cmd" || c == "command"

/-- A requested column that goes into the middle of the list: neither a
command alias nor one of the two identifier columns. -/
def claimKeep (c : String) : Bool :=
  !(psAlias c || c == "pid" || c == "ppid")

/-- Deduplication keeping the first occurrence of each column (later
duplicate requests are dropped), as the specification describes it; `seen`
holds the columns already emitted. -/
def dedupAux (seen : List String) : List String → List String
  | [] => []
  | c :: cs =>
    if seen.contains c then dedupAux seen cs
    else c :: dedupAux (c :: seen) cs

/-- Deduplication of a column list, keeping first occurrences. -/
def dedupKeepFirst (l : List String) : List String := dedupAux [] l

/-- The middle columns of the claimed invocation: requested columns
deduplicated (first occurrence kept), excluding the identifier columns and the
command aliases. -/
def claimMiddle (cols : List String) : List String :=
  dedupKeepFirst (cols.filter claimKeep)

/-- Whether the command column was requested under any alias. -/
def claimCmd (cols : List String) : Bool := cols.any psAlias

theorem dedupAux_congr (seen1 seen2 : List String)
    (h : ∀ x, seen1.contains x = seen2.contains x) :
    ∀ l, dedupAux seen1 l = dedupAux seen2 l := by
  intro l
  induction l generalizing seen1 seen2 with
  | nil => rfl
  | cons c cs ih =>
    simp only [dedupAux, h c]
    by_cases hc : seen2.contains c = true
    · rw [if_pos hc, if_pos hc]
      exact ih seen1 seen2 h
    · rw [if_neg hc, if_neg hc]
      rw [ih (c :: seen1) (c :: seen2) (by
        intro x
        simp only [List.contains_cons]
        rw [h x])]

theorem makePs_fold_spec :
    ∀ (cols : List String) (acc : List String) (flag : Bool),
      (cols.foldl
        (fun (acc : List String × Bool) c =>
          if c = "args" ∨ c = "cmd" ∨ c = "command" then (acc.1, true)
          else if c = "pid" ∨ c = "ppid" then acc
          else if acc.1.contains c then acc else (acc.1 ++ [c], acc.2))
        (acc, flag)) =
      (acc ++ dedupAux acc (cols.filter claimKeep), flag || claimCmd cols) := by
  intro cols
  induction cols with
  | nil => intro acc flag; simp [claimCmd, dedupAux]
  | cons c cs ih =>
    intro acc flag
    rw [List.foldl_cons]
    by_cases hA : c = "args" ∨ c = "cmd" ∨ c = "command"
    · have halias : psAlias c = true := by
        rcases hA with h | h | h <;> simp [psAlias, h]
      have hkeep : claimKeep c = false := by simp [claimKeep, halias]
      simp only [hA, if_true]
      rw [ih acc true]
      simp [List.filter_cons, hkeep, claimCmd, halias]
    · have halias : psAlias c = false := by
        simp only [psAlias]
        push_neg at hA
        simp [hA.1, hA.2.1, hA.2.2]
      by_cases hP : c = "pid" ∨ c = "ppid"
      · have hkeep : claimKeep c = false := by
          rcases hP with h | h <;> simp [claimKeep, h, psAlias]
        simp only [hA, if_false, hP, if_true]
        rw [ih acc flag]
        simp [List.filter_cons, hkeep, claimCmd, halias]
      · have hkeep : claimKeep c = true := by
          push_neg at hA hP
          simp [claimKeep, psAlias, hA.1, hA.2.1, hA.2.2, hP.1, hP.2]
        simp only [hA, if_false, hP]
        have hfc : (c :: cs).filter claimKeep = c :: cs.filter claimKeep :=
          List.filter_cons_of_pos hkeep
        by_cases hC : acc.contains c = true
        · simp only [hC, if_true]
          rw [ih acc flag]
          rw [hfc]
          rw [show dedupAux acc (c :: cs.filter claimKeep) =
            dedupAux acc (cs.filter claimKeep) from by
              rw [dedupAux, if_pos hC]]
          simp [claimCmd, halias]
        · have hCf : acc.contains c = false := by simpa using hC
          simp only [hCf, Bool.false_eq_true, if_false]
          rw [ih (acc ++ [c]) flag]
          rw [hfc]
          rw [show dedupAux acc (c :: cs.filter claimKeep) =
            c :: dedupAux (c :: acc) (cs.filter claimKeep) from by
              rw [dedupAux, if_neg (by rw [hCf]; simp)]]
          rw [dedupAux_congr (acc ++ [c]) (c :: acc) (by
            intro x
            simp only [List.contains_cons, List.elem_eq_mem, List.mem_append,
              List.mem_singleton, List.mem_cons, decide_eq_decide]
            tauto) (cs.filter claimKeep)]
          simp [claimCmd, halias]

theorem psColKeys_spec (cols : List String) :
    psColKeys cols = (claimMiddle cols, claimCmd cols) := by
  unfold psColKeys
  rw [makePs_fold_spec cols [] false]
  rfl

theorem mem_dedupAux (x : String) :
    ∀ (l seen : List String), x ∈ dedupAux seen l ↔ (x ∈ l ∧ x ∉ seen) := by
  intro l
  induction l with
  | nil => intro seen; simp [dedupAux]
  | cons c cs ih =>
    intro seen
    by_cases hc : seen.contains c = true
    · have hcm : c ∈ seen := by simpa using hc
      rw [dedupAux, if_pos hc, ih seen]
      constructor
      · rintro ⟨hx, hs⟩
        exact ⟨List.mem_cons_of_mem c hx, hs⟩
      · rintro ⟨hx, hs⟩
        rcases List.mem_cons.mp hx with h1 | h1
        · exact absurd (h1 ▸ hcm) hs
        · exact ⟨h1, hs⟩
    · have hcm : c ∉ seen := by simpa using hc
      rw [dedupAux, if_neg hc, List.mem_cons, ih (c :: seen)]
      constructor
      · rintro (h1 | ⟨hx, hs⟩)
        · subst h1
          exact ⟨List.mem_cons_self x cs, hcm⟩
        · exact ⟨List.mem_cons_of_mem c hx,
            fun hxs => hs (List.mem_cons_of_mem c hxs)⟩
      · rintro ⟨hx, hs⟩
        by_cases hxc : x = c
        · exact Or.inl hxc
        · rcases List.mem_cons.mp hx with h1 | h1
          · exact Or.inl h1
          · refine Or.inr ⟨h1, fun hxcs => ?_⟩
            rcases List.mem_cons.mp hxcs with h2 | h2
            · exact hxc h2
            · exact hs h2

theorem dedupAux_nodup : ∀ (l seen : List String), (dedupAux seen l).Nodup := by
  intro l
  induction l with
  | nil => intro seen; simp [dedupAux]
  | cons c cs ih =>
    intro seen
    by_cases hc : seen.contains c = true
    · rw [dedupAux, if_pos hc]
      exact ih seen
    · rw [dedupAux, if_neg hc]
      refine List.nodup_cons.mpr ⟨?_, ih (c :: seen)⟩
      intro hmem
      exact ((mem_dedupAux c cs (c :: seen)).mp hmem).2 (List.mem_cons_self c seen)

theorem strEmpty_append (s : String) : "" ++ s = s := by
  cases s with
  | mk l => rfl

theorem strAppend_empty (s : String) : s ++ "" = s := by
  cases s with
  | mk l =>
    show String.mk (l ++ []) = String.mk l
    rw [List.append_nil]

theorem strAppend_assoc (a b c : String) : a ++ b ++ c = a ++ (b ++ c) := by
  cases a with
  | mk la =>
    cases b with
    | mk lb =>
      cases c with
      | mk lc =>
        show String.mk (la ++ lb ++ lc) = String.mk (la ++ (lb ++ lc))
        rw [List.append_assoc]

theorem strFoldl_hoist : ∀ (t : List String) (a : String),
    t.foldl (fun r s => r ++ s) a = a ++ String.join t := by
  intro t
  induction t with
  | nil => intro a; exact (strAppend_empty a).symm
  | cons x xs ih =>
    intro a
    rw [List.foldl_cons, ih (a ++ x)]
    show a ++ x ++ String.join xs = a ++ String.join (x :: xs)
    rw [show String.join (x :: xs) = xs.foldl (fun r s => r ++ s) ("" ++ x) from rfl]
    rw [strEmpty_append, ih x, strAppend_assoc]

theorem makePs_mid_go : ∀ (mid : List String) (init : String),
    mid.foldl (fun b c => b ++ "," ++ c) init =
      init ++ String.join (mid.map (fun c => "," ++ c)) := by
  intro mid
  induction mid with
  | nil => intro init; exact (strAppend_empty init).symm
  | cons x xs ih =>
    intro init
    rw [List.foldl_cons, ih (init ++ "," ++ x), List.map_cons]
    rw [show String.join (("," ++ x) :: xs.map (fun c => "," ++ c)) =
      ("," ++ x) ++ String.join (xs.map (fun c => "," ++ c)) from by
        show (xs.map (fun c => "," ++ c)).foldl (fun r s => r ++ s)
          ("" ++ ("," ++ x)) = _
        rw [strEmpty_append, strFoldl_hoist]]
    simp only [strAppend_assoc]

/-! ### Error-mapper characterization -/

theorem takeWhile_exact {p : Char → Bool} :
    ∀ (a rest : List Char), (∀ c ∈ a, p c = true) →
      (∀ c, rest.head? = some c → p c = false) →
      (a ++ rest).takeWhile p = a ∧ (a ++ rest).dropWhile p = rest := by
  intro a
  induction a with
  | nil =>
    intro rest _ hrest
    cases rest with
    | nil => simp
    | cons r rs =>
      have := hrest r rfl
      simp [List.takeWhile, List.dropWhile, this]
  | cons x xs ih =>
    intro rest ha hrest
    have hx : p x = true := ha x (by simp)
    have hxs := ih rest (fun c hc => ha c (by simp [hc])) hrest
    simp [List.takeWhile_cons, List.dropWhile_cons, hx, hxs.1, hxs.2]

theorem dropWhile_head_false {p : Char → Bool} :
    ∀ (l : List Char) (c : Char), (l.dropWhile p).head? = some c → p c = false := by
  intro l
  induction l with
  | nil => intro c h; simp at h
  | cons x xs ih =>
    intro c h
    by_cases hx : p x = true
    · rw [List.dropWhile_cons_of_pos hx] at h
      exact ih c h
    · have hx' : p x = false := by simpa using hx
      rw [List.dropWhile_cons_of_neg (by simp [hx'])] at h
      have : x = c := by simpa using h
      exact this ▸ hx'

theorem mem_takeWhile_sat {p : Char → Bool} :
    ∀ (l : List Char) (c : Char), c ∈ l.takeWhile p → p c = true := by
  intro l
  induction l with
  | nil => intro c h; simp at h
  | cons x xs ih =>
    intro c h
    by_cases hx : p x = true
    · rw [List.takeWhile_cons_of_pos hx] at h
      rcases List.mem_cons.mp h with h1 | h1
      · exact h1 ▸ hx
      · exact ih c h1
    · rw [List.takeWhile_cons_of_neg (by simpa using hx)] at h
      simp at h

/-- The prefix shape described by the specification: a nonempty run of ASCII
letters, a colon, a nonempty (maximal) run of pattern whitespace; `t` is the
rest of the diagnostic. -/
def ClaimPfx (s t : String) : Prop :=
  ∃ a w r, s.data = a ++ [':'] ++ w ++ r ∧ a ≠ [] ∧ (∀ c ∈ a, c.isAlpha = true) ∧
    w ≠ [] ∧ (∀ c ∈ w, re2Space c = true) ∧
    (∀ c, r.head? = some c → re2Space c = false) ∧ t = String.mk r

theorem cutErrPfx_of_claim (s t : String) (h : ClaimPfx s t) : cutErrPfx s = t := by
  obtain ⟨a, w, r, hsplit, hane, halpha, hwne, hwsp, hrhead, ht⟩ := h
  have hcolon : Char.isAlpha ':' = false := by decide
  have htw := takeWhile_exact a ([':'] ++ w ++ r) halpha (by
    intro c hc
    have hcc : (':' : Char) = c := by simpa using hc
    rw [← hcc]
    exact hcolon)
  have hsd : s.data = a ++ ([':'] ++ w ++ r) := by
    rw [hsplit]
    simp [List.append_assoc]
  have htake : s.data.takeWhile Char.isAlpha = a := by rw [hsd, htw.1]
  have hdrop : s.data.drop (s.data.takeWhile Char.isAlpha).length = ':' :: (w ++ r) := by
    rw [htake, hsd, List.drop_left]
    rfl
  have htw2 := takeWhile_exact w r hwsp hrhead
  have hmatch : matchErrPfx s = some (a.length + 1 + w.length) := by
    unfold matchErrPfx
    rw [if_neg (by rw [htake]; simpa using hane)]
    rw [hdrop]
    show (if ((w ++ r).takeWhile re2Space).isEmpty then none
      else some ((s.data.takeWhile Char.isAlpha).length + 1 +
        ((w ++ r).takeWhile re2Space).length)) = _
    rw [htw2.1, htake]
    rw [if_neg (by simpa using hwne)]
  unfold cutErrPfx
  rw [hmatch, ht]
  have hfin : s.data.drop (a.length + 1 + w.length) = r := by
    have hsd2 : s.data = (a ++ [':'] ++ w) ++ r := by rw [hsplit]
    have hlen : (a ++ [':'] ++ w).length = a.length + 1 + w.length := by
      simp
      omega
    rw [hsd2, ← hlen, List.drop_left]
  show String.mk (s.data.drop (a.length + 1 + w.length)) = String.mk r
  rw [hfin]

theorem drop_takeWhile_len {p : Char → Bool} (l : List Char) :
    l.drop (l.takeWhile p).length = l.dropWhile p := by
  have h := List.drop_left (l.takeWhile p) (l.dropWhile p)
  rw [List.takeWhile_append_dropWhile] at h
  exact h

theorem matchErrPfx_claim (s : String) (e : Nat) (h : matchErrPfx s = some e) :
    ClaimPfx s (String.mk (s.data.drop e)) := by
  unfold matchErrPfx at h
  by_cases ha : (s.data.takeWhile Char.isAlpha).isEmpty = true
  · rw [if_pos ha] at h
    exact absurd h (by simp)
  · rw [if_neg ha] at h
    rw [drop_takeWhile_len s.data] at h
    split at h
    · rename_i r2 heq
      by_cases hw : (r2.takeWhile re2Space).isEmpty = true
      · rw [if_pos hw] at h
        exact absurd h (by simp)
      · rw [if_neg hw] at h
        have he : (s.data.takeWhile Char.isAlpha).length + 1 +
            (r2.takeWhile re2Space).length = e := Option.some.inj h
        have h1 : s.data.takeWhile Char.isAlpha ++ (':' :: r2) = s.data := by
          have h0 := List.takeWhile_append_dropWhile Char.isAlpha s.data
          rw [heq] at h0
          exact h0
        have h2 : (':' :: r2 : List Char) =
            ':' :: (r2.takeWhile re2Space ++ r2.dropWhile re2Space) :=
          congrArg (fun x => ':' :: x) (List.takeWhile_append_dropWhile re2Space r2).symm
        have h3 : s.data = s.data.takeWhile Char.isAlpha ++
            (':' :: (r2.takeWhile re2Space ++ r2.dropWhile re2Space)) :=
          h1.symm.trans (congrArg (fun x => s.data.takeWhile Char.isAlpha ++ x) h2)
        have hsd2 : s.data = ((s.data.takeWhile Char.isAlpha ++ [':']) ++
            r2.takeWhile re2Space) ++ r2.dropWhile re2Space :=
          h3.trans (by simp [List.append_assoc])
        refine ⟨s.data.takeWhile Char.isAlpha, r2.takeWhile re2Space,
          r2.dropWhile re2Space, ?_, by simpa using ha, ?_, by simpa using hw, ?_, ?_, ?_⟩
        · exact hsd2
        · intro c hc
          exact mem_takeWhile_sat s.data c hc
        · intro c hc
          exact mem_takeWhile_sat r2 c hc
        · intro c hc
          exact dropWhile_head_false r2 c hc
        · have step1 := congrArg
            (List.drop ((s.data.takeWhile Char.isAlpha).length + 1 +
              (r2.takeWhile re2Space).length)) hsd2
          have hlen : ((s.data.takeWhile Char.isAlpha ++ [':']) ++
              r2.takeWhile re2Space).length =
              (s.data.takeWhile Char.isAlpha).length + 1 +
                (r2.takeWhile re2Space).length := by
            simp
            omega
          have step2 : List.drop ((s.data.takeWhile Char.isAlpha).length + 1 +
              (r2.takeWhile re2Space).length)
              (((s.data.takeWhile Char.isAlpha ++ [':']) ++
                r2.takeWhile re2Space) ++ r2.dropWhile re2Space) =
              r2.dropWhile re2Space := by
            rw [← hlen]
            exact List.drop_left _ _
          rw [← he]
          rw [step1.trans step2]
    · rename_i hnocolon
      exact absurd h (by simp)

/-- The first line of a diagnostic, as the specification describes it: the
characters before the first newline (the whole string when there is none). -/
def firstLineOf (s : String) : String :=
  String.mk (s.data.takeWhile (fun c => !(c == '\n')))

theorem take_findIdx_eq_takeWhile {p : Char → Bool} :
    ∀ (cs : List Char) (base i : Nat), cs.findIdx? p base = some i →
      base ≤ i ∧ cs.take (i - base) = cs.takeWhile (fun c => !(p c)) := by
  intro cs
  induction cs with
  | nil =>
    intro base i h
    simp at h
  | cons c cs ih =>
    intro base i h
    rw [List.findIdx?_cons] at h
    by_cases hc : p c = true
    · rw [if_pos hc] at h
      have : base = i := Option.some.inj h
      subst this
      refine ⟨le_refl base, ?_⟩
      rw [Nat.sub_self]
      rw [List.takeWhile_cons_of_neg (by simp [hc])]
      rfl
    · rw [if_neg hc] at h
      obtain ⟨hle, htake⟩ := ih (base + 1) i h
      refine ⟨by omega, ?_⟩
      have hstep : i - base = (i - (base + 1)) + 1 := by omega
      rw [hstep, List.take_succ_cons,
        List.takeWhile_cons_of_pos (by simp [hc]), htake]

/-- A valid base-10 machine-integer literal with value `v`, as accepted by
`strconv.Atoi`: an optional single leading sign followed by one or more
decimal digits, with the value representable in a signed 64-bit integer. -/
def IntLit (s : String) (v : Int) : Prop :=
  ∃ pre ds, (pre = [] ∨ pre = ['+'] ∨ pre = ['-']) ∧ ds ≠ [] ∧
    (∀ c ∈ ds, c.isDigit) ∧ s.data = pre ++ ds ∧
    v = (if pre = ['-'] then -(digitsToNat ds : Int) else (digitsToNat ds : Int)) ∧
    -(2 ^ 63) ≤ v ∧ v ≤ 2 ^ 63 - 1

theorem natCast_digits_nonneg (ds : List Char) : (0 : Int) ≤ (digitsToNat ds : Int) :=
  Int.natCast_nonneg _

theorem goAtoi_ok_iff (s : String) (v : Int) :
    goAtoi s = .ok v ↔ IntLit s v := by
  have pow63 : (2 : Int) ^ 63 = 9223372036854775808 := by norm_num
  have pow63n : (2 : Nat) ^ 63 = 9223372036854775808 := by norm_num
  constructor
  · intro h
    unfold goAtoi at h
    cases hd : s.data with
    | nil => rw [hd] at h; exact absurd h (by simp)
    | cons c rest =>
      rw [hd] at h
      simp only at h
      by_cases hsign : c = '-' ∨ c = '+'
      · rw [if_pos hsign] at h
        by_cases hbad : rest.isEmpty = true ∨ ¬ rest.all Char.isDigit = true
        · rw [if_pos hbad] at h; exact absurd h (by simp)
        · rw [if_neg hbad] at h
          push_neg at hbad
          have hrne : rest ≠ [] := by
            cases rest with
            | nil => exact absurd rfl hbad.1
            | cons a b => simp
          rcases hsign with hneg | hpos
          · rw [if_pos (by simp [hneg] : (decide (c = '-')) = true)] at h
            by_cases hr : digitsToNat rest ≤ 2 ^ 63
            · rw [if_pos hr] at h
              have hv : -(digitsToNat rest : Int) = v := Except.ok.inj h
              have h0 := natCast_digits_nonneg rest
              refine ⟨['-'], rest, by simp, hrne, ?_, by simp [hd, hneg], ?_, ?_, ?_⟩
              · intro cc hcc; exact (List.all_eq_true.mp hbad.2) cc hcc
              · simp [← hv]
              · rw [← hv, pow63]
                rw [pow63n] at hr
                omega
              · rw [← hv, pow63]; omega
            · rw [if_neg hr] at h; exact absurd h (by simp)
          · have hne2 : (decide (c = '-')) ≠ true := by simp [hpos]
            rw [if_neg hne2] at h
            by_cases hr : digitsToNat rest ≤ 2 ^ 63 - 1
            · rw [if_pos hr] at h
              have hv : (digitsToNat rest : Int) = v := Except.ok.inj h
              have h0 := natCast_digits_nonneg rest
              refine ⟨['+'], rest, by simp, hrne, ?_, by simp [hd, hpos], ?_, ?_, ?_⟩
              · intro cc hcc; exact (List.all_eq_true.mp hbad.2) cc hcc
              · simp [← hv]
              · rw [← hv, pow63]; omega
              · rw [← hv, pow63]
                rw [pow63n] at hr
                omega
            · rw [if_neg hr] at h; exact absurd h (by simp)
      · rw [if_neg hsign] at h
        push_neg at hsign
        by_cases hbad : (c :: rest).isEmpty = true ∨ ¬ (c :: rest).all Char.isDigit = true
        · rw [if_pos hbad] at h; exact absurd h (by simp)
        · rw [if_neg hbad] at h
          push_neg at hbad
          have hne2 : (decide (c = '-')) ≠ true := by simp [hsign.1]
          rw [if_neg hne2] at h
          by_cases hr : digitsToNat (c :: rest) ≤ 2 ^ 63 - 1
          · rw [if_pos hr] at h
            have hv : (digitsToNat (c :: rest) : Int) = v := Except.ok.inj h
            have h0 := natCast_digits_nonneg (c :: rest)
            refine ⟨[], c :: rest, by simp, by simp, ?_, by simp [hd], ?_, ?_, ?_⟩
            · intro cc hcc; exact (List.all_eq_true.mp hbad.2) cc hcc
            · simp [← hv]
            · rw [← hv, pow63]; omega
            · rw [← hv, pow63]
              rw [pow63n] at hr
              omega
          · rw [if_neg hr] at h; exact absurd h (by simp)
  · rintro ⟨pre, ds, hpre, hds, hdig, hsplit, hv, hlo, hhi⟩
    have hall : ds.all Char.isDigit = true := List.all_eq_true.mpr (by
      intro c hc; exact hdig c hc)
    have hdsne : ds.isEmpty = false := by
      cases ds with
      | nil => exact absurd rfl hds
      | cons a b => rfl
    have hgood : ¬ (ds.isEmpty = true ∨ ¬ ds.all Char.isDigit = true) := by
      push_neg
      exact ⟨by simp [hdsne], hall⟩
    have h0 := natCast_digits_nonneg ds
    unfold goAtoi
    rcases hpre with h0p | h0p | h0p <;> subst h0p
    · simp only [List.nil_append] at hsplit
      cases ds with
      | nil => exact absurd rfl hds
      | cons c rest =>
        rw [hsplit]
        simp only
        have hcd : c.isDigit := hdig c (by simp)
        have hne : ¬ (c = '-' ∨ c = '+') := by
          rintro (h | h) <;> (subst h; revert hcd; decide)
        rw [if_neg hne, if_neg hgood,
          if_neg (by simp only [decide_eq_true_eq]; exact fun hcc => hne (Or.inl hcc))]
        rw [if_neg (by simp : ¬ ([] : List Char) = ['-'])] at hv
        have hr : digitsToNat (c :: rest) ≤ 2 ^ 63 - 1 := by
          rw [pow63n]
          rw [pow63] at hhi
          omega
        rw [if_pos hr, hv]
    · simp only [List.singleton_append] at hsplit
      rw [hsplit]
      simp only
      rw [if_pos (Or.inr trivial), if_neg hgood,
        if_neg (by decide : ¬ (decide (('+' : Char) = '-')) = true)]
      rw [if_neg (by simp : ¬ (['+'] : List Char) = ['-'])] at hv
      have hr : digitsToNat ds ≤ 2 ^ 63 - 1 := by
        rw [pow63n]
        rw [pow63] at hhi
        omega
      rw [if_pos hr, hv]
    · simp only [List.singleton_append] at hsplit
      rw [hsplit]
      simp only
      rw [if_pos (Or.inl trivial), if_neg hgood,
        if_pos (by decide : (decide True) = true)]
      rw [if_pos (by simp : (['-'] : List Char) = ['-'])] at hv
      have hr : digitsToNat ds ≤ 2 ^ 63 := by
        rw [pow63n]
        rw [pow63] at hlo
        omega
      rw [if_pos hr, hv]

/-! ### Claim theorems -/

theorem IntLit_length_ne_zero (s : String) (v : Int) (h : IntLit s v) :
    s.length ≠ 0 := by
  obtain ⟨pre, ds, hpre, hds, -, hsplit, -⟩ := h
  have hlen : s.length = s.data.length := rfl
  rw [hlen, hsplit]
  rcases hpre with h0 | h0 | h0 <;> subst h0 <;>
    (cases ds with
     | nil => exact absurd rfl hds
     | cons c cs => simp)

theorem hasPid_iff (r : Record) (q : Int) :
    hasPid r q = true ↔ getPid r "PID" = .ok q := by
  unfold hasPid
  cases h : getPid r "PID" with
  | ok p => simp [beq_iff_eq]
  | error e => simp

/-- C3: `getPid` fails with the missing-field error when the field is absent
or its value is the empty string; with the number-format error when the value
is present but is not a valid base-10 machine-integer literal; with the
negative-value error when the value parses to a negative integer; and
otherwise returns exactly the parsed non-negative integer. -/
theorem claim_C3 (stats : Record) (key : String) :
    ((rhas stats key = false ∨ rget stats key = "") →
      getPid stats key = .error (.missingField key)) ∧
    (rget stats key ≠ "" → (¬ ∃ v, IntLit (rget stats key) v) →
      ∃ e, getPid stats key = .error (.numFormat key (rget stats key) e)) ∧
    (∀ v, IntLit (rget stats key) v → v < 0 →
      getPid stats key = .error (.negValue key (rget stats key))) ∧
    (∀ v, IntLit (rget stats key) v → 0 ≤ v → getPid stats key = .ok v) := by
  refine ⟨?_, ?_, ?_, ?_⟩
  · intro h
    have hempty : rget stats key = "" := by
      rcases h with h | h
      · exact rget_of_rhas_false stats key h
      · exact h
    unfold getPid
    rw [if_pos (by rw [hempty]; rfl)]
  · intro hne hnl
    have hlen : ¬ (rget stats key).length = 0 := by
      intro h0
      exact hne (by
        have : (rget stats key).data.length = 0 := h0
        cases hd : (rget stats key).data with
        | nil =>
          cases hs : rget stats key with
          | mk d => rw [hs] at hd; simp at hd; rw [hd]
        | cons c cs => rw [hd] at this; simp at this)
    unfold getPid
    rw [if_neg hlen]
    cases hA : goAtoi (rget stats key) with
    | ok v => exact absurd ⟨v, (goAtoi_ok_iff _ _).mp hA⟩ hnl
    | error e =>
      exact ⟨e, rfl⟩
  · intro v hl hv
    have hA : goAtoi (rget stats key) = .ok v := (goAtoi_ok_iff _ _).mpr hl
    unfold getPid
    rw [if_neg (by
      intro h0
      exact IntLit_length_ne_zero (rget stats key) v hl h0)]
    rw [hA]
    show (if v < 0 then Except.error (RErr.negValue key (rget stats key))
      else Except.ok v) = _
    rw [if_pos hv]
  · intro v hl hv
    have hA : goAtoi (rget stats key) = .ok v := (goAtoi_ok_iff _ _).mpr hl
    unfold getPid
    rw [if_neg (by
      intro h0
      exact IntLit_length_ne_zero (rget stats key) v hl h0)]
    rw [hA]
    show (if v < 0 then Except.error (RErr.negValue key (rget stats key))
      else Except.ok v) = _
    rw [if_neg (by omega)]

/-- C3 witness: at the record mapping PID to "-5", the value parses negative,
and `getPid` reports the negative-value error. -/
theorem claim_C3_witness :
    IntLit "-5" (-5) ∧ (-5 : Int) < 0 ∧
    getPid [("PID", "-5")] "PID" = .error (.negValue "PID" "-5") := by
  have hl : IntLit "-5" (-5) := by
    refine ⟨['-'], ['5'], by simp, by simp, by decide, by decide, by decide, by decide, by decide⟩
  exact ⟨hl, by decide, (claim_C3 [("PID", "-5")] "PID").2.2.1 (-5) hl (by decide)⟩

/-- C10: a value consisting of a leading plus sign followed by decimal digits
within machine-integer range is accepted by `getPid`, which returns the
numeric value of the digits. -/
theorem claim_C10 (stats : Record) (key : String) (ds : List Char)
    (h1 : (rget stats key).data = '+' :: ds) (h2 : ds ≠ [])
    (h3 : ∀ c ∈ ds, c.isDigit = true)
    (h4 : (digitsToNat ds : Int) ≤ 2 ^ 63 - 1) :
    getPid stats key = .ok (digitsToNat ds) := by
  have hl : IntLit (rget stats key) (digitsToNat ds) := by
    refine ⟨['+'], ds, by simp, h2, h3, by simpa using h1, ?_, ?_, h4⟩
    · rw [if_neg (by simp)]
    · have := natCast_digits_nonneg ds
      omega
  exact (claim_C3 stats key).2.2.2 (digitsToNat ds) hl (natCast_digits_nonneg ds)

/-- C10 witness: the value "+123" is accepted and parses to 123. -/
theorem claim_C10_witness :
    (rget [("PID", "+123")] "PID").data = '+' :: ['1', '2', '3'] ∧
    getPid [("PID", "+123")] "PID" = .ok 123 := by
  refine ⟨by decide, ?_⟩
  have := claim_C10 [("PID", "+123")] "PID" ['1', '2', '3'] (by decide) (by simp)
    (by decide) (by decide)
  simpa using this

/-- C2: over a sequence of trimmed non-empty lines, the parser fails with the
header error when the first line has fewer than two fields; otherwise each
data line is split on whitespace runs capped at the header length, the parser
fails with the row-shape error on the first ill-shaped data line, and on
success returns one record per data line (lines minus one records in total),
record fields being the zip of header names with the line's fields. -/
theorem claim_C2 (lines : List String) :
    (lines = [] → psParse lines = .ok []) ∧
    (∀ h rest, lines = h :: rest →
      ((goFields h).length < 2 → psParse lines = .error (.headerErr (goFields h))) ∧
      (2 ≤ (goFields h).length →
        (∀ l, rest.find? (badRow (goFields h).length) = some l →
          psParse lines = .error (.rowShape (re2SplitCap l (goFields h).length).length
            (goFields h).length (re2SplitCap l (goFields h).length))) ∧
        (rest.find? (badRow (goFields h).length) = none →
          psParse lines = .ok (rest.map (fun l =>
            zipRecord (goFields h) (re2SplitCap l (goFields h).length))) ∧
          (rest.map (fun l => zipRecord (goFields h)
            (re2SplitCap l (goFields h).length))).length = lines.length - 1) ∧
        ((goFields h).Nodup → ∀ (l : String) (j : Nat) (hj : j < (goFields h).length)
          (hlen : (goFields h).length ≤ (re2SplitCap l (goFields h).length).length),
          rget (zipRecord (goFields h) (re2SplitCap l (goFields h).length))
            ((goFields h).get ⟨j, hj⟩) =
            (re2SplitCap l (goFields h).length).get ⟨j, lt_of_lt_of_le hj hlen⟩))) := by
  constructor
  · intro h0
    subst h0
    rfl
  · intro h rest hl
    subst hl
    have hun : psParse (h :: rest) = if (goFields h).length < 2 then
        Except.error (.headerErr (goFields h)) else readRows (goFields h) rest [] := rfl
    refine ⟨?_, ?_⟩
    · intro hlt
      rw [hun, if_pos hlt]
    · intro hge
      have hnot : ¬ (goFields h).length < 2 := by omega
      refine ⟨?_, ?_, ?_⟩
      · intro l hfind
        rw [hun, if_neg hnot]
        exact (readRows_spec (goFields h) rest []).1 l hfind
      · intro hfind
        constructor
        · rw [hun, if_neg hnot]
          rw [(readRows_spec (goFields h) rest []).2 hfind]
          simp
        · simp
      · intro hnd l j hj hlen
        exact rget_zipRecord (goFields h) (re2SplitCap l (goFields h).length) hnd hlen j hj

/-- C2 witness: a two-column header with a free-form last column; the data
line's tail keeps its internal whitespace in the last field. -/
theorem claim_C2_witness :
    psParse ["PID PPID CMD", "1 0 /sbin/init -x"] =
      .ok [[("PID", "1"), ("PPID", "0"), ("CMD", "/sbin/init -x")]] := by
  have h1 := ((claim_C2 ["PID PPID CMD", "1 0 /sbin/init -x"]).2 "PID PPID CMD"
    ["1 0 /sbin/init -x"] rfl).2 (by decide)
  have h2 := (h1.2.1 (by decide)).1
  rw [h2]
  decide

/-- C4: when every record's PID and PPID extract successfully, `buildProcTree`
fails with the root-not-found error exactly when no record has pid 1 (in
particular on an empty record list), and otherwise succeeds with a root node
whose pid is 1. -/
theorem claim_C4 (records : List Record)
    (h1 : ∀ r ∈ records, ∃ p, getPid r "PID" = .ok p)
    (h2 : ∀ r ∈ records, ∃ q, getPid r "PPID" = .ok q) :
    ((¬ ∃ r ∈ records, getPid r "PID" = .ok 1) →
      buildProcTree records = .error .rootNotFound) ∧
    ((∃ r ∈ records, getPid r "PID" = .ok 1) →
      ∃ root g, buildProcTree records = .ok (root, g) ∧ root.pid = 1) := by
  obtain ⟨idx, hidx⟩ := buildIdxGo_ok records [] h1
  have hidx' : buildIdx records = .ok idx := hidx
  have hmem := buildIdxGo_mem records [] idx hidx
  have hpp : ∀ e ∈ idx, ∃ q, getPid e.2 "PPID" = .ok q := by
    intro e he
    rcases hmem e he with h | h
    · exact h2 e.2 h
    · simp at h
  obtain ⟨g, hg⟩ := linkGo_ok idx (idx.map (fun e => (e.1, ⟨e.1, e.2, []⟩))) hpp
  have hg' : linkPass idx = .ok g := hg
  have hlook := buildIdxGo_lookup records [] idx hidx
  have hgchar := linkPass_lookup idx g hg'
  have hun : buildProcTree records =
      match idxLookup g 1 with
      | some root => .ok (root, g)
      | none => .error .rootNotFound := by
    unfold buildProcTree
    rw [hidx']
    show (match linkPass idx with
      | Except.error e => Except.error e
      | Except.ok g =>
        match idxLookup g 1 with
        | some root => Except.ok (root, g)
        | none => Except.error RErr.rootNotFound) = _
    rw [hg']
  constructor
  · intro hno
    have hfind : records.reverse.find? (fun r => hasPid r 1) = none := by
      cases hf : records.reverse.find? (fun r => hasPid r 1) with
      | none => rfl
      | some r =>
        exfalso
        have hmem2 := List.mem_of_find?_eq_some hf
        have hpred := List.find?_some hf
        exact hno ⟨r, List.mem_reverse.mp hmem2, (hasPid_iff r 1).mp hpred⟩
    have hnone : idxLookup idx 1 = none := by
      rw [hlook 1, hfind]
      rfl
    have : idxLookup g 1 = none := by
      rw [hgchar 1, hnone]
      rfl
    rw [hun, this]
  · rintro ⟨r, hr, hpid⟩
    have hsome : (records.reverse.find? (fun r => hasPid r 1)).isSome := by
      rw [List.find?_isSome]
      exact ⟨r, List.mem_reverse.mpr hr, (hasPid_iff r 1).mpr hpid⟩
    obtain ⟨r0, hr0⟩ := Option.isSome_iff_exists.mp hsome
    have hidxsome : idxLookup idx 1 = some r0 := by
      rw [hlook 1, hr0]
    have hgsome : idxLookup g 1 = some ⟨1, r0, childrenAdds idx 1⟩ := by
      rw [hgchar 1, hidxsome]
      rfl
    refine ⟨⟨1, r0, childrenAdds idx 1⟩, g, ?_, rfl⟩
    rw [hun, hgsome]

/-- C4 witness: a single record with pid 1 builds successfully with root pid
1; hypotheses on extraction are discharged concretely. -/
theorem claim_C4_witness :
    ∃ root g, buildProcTree [[("PID", "1"), ("PPID", "0")]] = .ok (root, g) ∧
      root.pid = 1 := by
  refine (claim_C4 [[("PID", "1"), ("PPID", "0")]] ?_ ?_).2 ?_
  · intro r hr
    have : r = [("PID", "1"), ("PPID", "0")] := by simpa using hr
    subst this
    exact ⟨1, by decide⟩
  · intro r hr
    have : r = [("PID", "1"), ("PPID", "0")] := by simpa using hr
    subst this
    exact ⟨0, by decide⟩
  · exact ⟨[("PID", "1"), ("PPID", "0")], by simp, by decide⟩

/-- C8: with duplicate pids the pid index keeps only the node of the last
record with that pid (later records silently overwrite earlier entries), and
no error is reported for the duplicates: index construction succeeds whenever
every record's PID extracts. -/
theorem claim_C8 (records : List Record) :
    ((∀ r ∈ records, ∃ p, getPid r "PID" = .ok p) →
      ∃ idx, buildIdx records = .ok idx) ∧
    (∀ idx, buildIdx records = .ok idx → ∀ p,
      idxLookup idx p = records.reverse.find? (fun r => hasPid r p)) ∧
    (∀ root g, buildProcTree records = .ok (root, g) → ∀ p n,
      idxLookup g p = some n →
      records.reverse.find? (fun r => hasPid r p) = some n.stats) := by
  refine ⟨fun h => buildIdxGo_ok records [] h, ?_, ?_⟩
  · intro idx hidx p
    rw [buildIdxGo_lookup records [] idx hidx p]
    cases records.reverse.find? (fun r => hasPid r p) with
    | none => rfl
    | some r => rfl
  · intro root g hb p n hn
    obtain ⟨idx, hidx, hlink, hnd, hchar, hroot⟩ := buildProcTree_ok_char records root g hb
    have hcp := hchar p
    rw [hn] at hcp
    cases hip : idxLookup idx p with
    | none => rw [hip] at hcp; exact absurd hcp (by simp)
    | some st =>
      rw [hip] at hcp
      have hne : n = ⟨p, st, childrenAdds idx p⟩ := by simpa using hcp
      have hfind : idxLookup idx p = records.reverse.find? (fun r => hasPid r p) := by
        rw [buildIdxGo_lookup records [] idx hidx p]
        cases records.reverse.find? (fun r => hasPid r p) with
        | none => rfl
        | some r => rfl
      rw [← hfind, hip, hne]

/-- C8 witness: of two records with pid 2, only the later one's stats survive
in the index, with no error. -/
theorem claim_C8_witness :
    buildIdx [[("PID", "2"), ("PPID", "1"), ("V", "a")],
      [("PID", "2"), ("PPID", "1"), ("V", "b")], [("PID", "1"), ("PPID", "0")]] =
      .ok [(2, [("PID", "2"), ("PPID", "1"), ("V", "b")]), (1, [("PID", "1"), ("PPID", "0")])] ∧
    idxLookup [(2, ([("PID", "2"), ("PPID", "1"), ("V", "b")] : Record)),
      (1, [("PID", "1"), ("PPID", "0")])] 2 =
      some [("PID", "2"), ("PPID", "1"), ("V", "b")] := by
  constructor
  · decide
  · rw [(claim_C8 [[("PID", "2"), ("PPID", "1"), ("V", "a")],
      [("PID", "2"), ("PPID", "1"), ("V", "b")], [("PID", "1"), ("PPID", "0")]]).2.1
      [(2, [("PID", "2"), ("PPID", "1"), ("V", "b")]), (1, [("PID", "1"), ("PPID", "0")])]
      (by decide) 2]
    decide

/-- The example record of claim C5. -/
def c5rec : Record :=
  [("PID", "1"), ("PPID", "0"), ("%CPU", "0.1"), ("%MEM", "0.2"), ("CMD", "/sbin/init")]

/-- C5 counterexample: the claim states that the PID and PPID keys are
excluded from the node's stats; in `rstat.go` the node keeps the whole record
as its stats, so on the claim's own example the root's stats still map "PID"
to "1" and "PPID" to "0" instead of excluding them. -/
theorem claim_C5_counterexample :
    buildProcTree [c5rec] = .ok (⟨1, c5rec, []⟩, [(1, ⟨1, c5rec, []⟩)]) ∧
    rget (PN.mk 1 c5rec []).stats "PID" = "1" ∧
    rget (PN.mk 1 c5rec []).stats "PPID" = "0" ∧
    ("1" : String) ≠ "" := by
  refine ⟨by decide, by decide, by decide, by decide⟩

/-- C5 amended: every node of the result carries the pid extracted from its
record's PID field and its stats are the record itself unchanged, PID and
PPID keys included; on the single example record, build returns a root with
pid 1, no children, and stats equal to the full record. -/
theorem claim_C5_amended :
    (∀ records root g, buildProcTree records = .ok (root, g) →
      ∀ p n, idxLookup g p = some n →
        n.pid = p ∧ ∃ r, r ∈ records ∧ getPid r "PID" = .ok p ∧ n.stats = r) ∧
    buildProcTree [c5rec] = .ok (⟨1, c5rec, []⟩, [(1, ⟨1, c5rec, []⟩)]) := by
  constructor
  · intro records root g hb p n hn
    obtain ⟨idx, hidx, hlink, hnd, hchar, hroot⟩ := buildProcTree_ok_char records root g hb
    have hcp := hchar p
    rw [hn] at hcp
    cases hip : idxLookup idx p with
    | none => rw [hip] at hcp; exact absurd hcp (by simp)
    | some st =>
      rw [hip] at hcp
      have hne : n = ⟨p, st, childrenAdds idx p⟩ := by simpa using hcp
      have hfind : records.reverse.find? (fun r => hasPid r p) = some st := by
        have hlf := buildIdxGo_lookup records [] idx hidx p
        rw [hip] at hlf
        cases hf : records.reverse.find? (fun r => hasPid r p) with
        | none =>
          rw [hf] at hlf
          simp [idxLookup] at hlf
        | some r =>
          rw [hf] at hlf
          simpa using hlf.symm
      have hmem := List.mem_of_find?_eq_some hfind
      have hpred := List.find?_some hfind
      refine ⟨by rw [hne], st, List.mem_reverse.mp hmem,
        (hasPid_iff st p).mp hpred, by rw [hne]⟩
  · decide

/-- C5 amended witness: the general statement applied to the example. -/
theorem claim_C5_amended_witness :
    (PN.mk 1 c5rec []).pid = 1 ∧
    ∃ r, r ∈ [c5rec] ∧ getPid r "PID" = .ok 1 ∧ (PN.mk 1 c5rec []).stats = r :=
  claim_C5_amended.1 [c5rec] ⟨1, c5rec, []⟩ [(1, ⟨1, c5rec, []⟩)]
    (by decide) 1 ⟨1, c5rec, []⟩ (by decide)

/-- C6 counterexample: the claim requires width-specifier suffixes to be
stripped before classification, under which "cmd:20" would be recognized as
the command alias and absorbed into the trailing "cmd" column; `rstat.go`
matches the column string verbatim, so "cmd:20" becomes a key of the
deduplication map and is emitted among the middle columns unchanged.  The map
here has a single key, so every iteration order the runtime can produce is
the singleton enumeration (a one-element list has no other permutation:
`List.mem_permutations'` reads the second conjunct as listing them all), and
every run emits the same argument string. -/
theorem claim_C6_counterexample :
    (psColKeys ["cmd:20"]).1 = ["cmd:20"] ∧
    (["cmd:20"] : List String).permutations' = [["cmd:20"]] ∧
    makePsCommand ["cmd:20"] ["cmd:20"] = ["ps", "-ewwo", "pid,ppid,cmd:20"] ∧
    makePsCommand ["cmd:20"] ["cmd:20"] ≠ ["ps", "-ewwo", "pid,ppid,cmd"] := by
  refine ⟨by decide, by decide, by decide, by decide⟩

/-- C6 amended: with no width-specifier stripping (columns are classified
verbatim), an empty request yields the wide default invocation; otherwise,
for every iteration order of the deduplication map the runtime can produce
(any permutation of the computed key set), the invocation is
`ps -ewwo <cols>` with a single comma-separated column argument that starts
with the identifiers `pid,ppid`, continues with exactly the requested
non-identifier non-alias columns, each once (duplicates dropped) and in the
map's unspecified order, and ends with `,cmd` exactly when some column was
requested under a command alias. -/
theorem claim_C6_amended :
    (∀ mid, makePsCommand [] mid = ["ps", "-ewwF"]) ∧
    (∀ cols : List String, cols ≠ [] → ∀ mid : List String,
      mid.Perm (psColKeys cols).1 →
      mid.Nodup ∧
      (∀ c, c ∈ mid ↔ (c ∈ cols ∧ psAlias c = false ∧ c ≠ "pid" ∧ c ≠ "ppid")) ∧
      makePsCommand cols mid = ["ps", "-ewwo",
        "pid,ppid" ++ String.join (mid.map (fun c => "," ++ c)) ++
          (if claimCmd cols then ",cmd" else "")]) := by
  refine ⟨fun mid => rfl, ?_⟩
  intro cols hne mid hperm
  have hkeys : psColKeys cols = (claimMiddle cols, claimCmd cols) := psColKeys_spec cols
  refine ⟨?_, ?_, ?_⟩
  · have hnd : (psColKeys cols).1.Nodup := by
      rw [hkeys]
      exact dedupAux_nodup (cols.filter claimKeep) []
    exact hperm.symm.nodup hnd
  · intro c
    rw [hperm.mem_iff, show (psColKeys cols).1 = claimMiddle cols from by rw [hkeys]]
    rw [show claimMiddle cols = dedupAux [] (cols.filter claimKeep) from rfl]
    rw [mem_dedupAux c (cols.filter claimKeep) []]
    simp only [List.mem_filter, List.not_mem_nil, not_false_eq_true, and_true,
      claimKeep, Bool.not_eq_true', Bool.or_eq_false_iff, beq_eq_false_iff_ne]
    tauto
  · unfold makePsCommand
    rw [if_neg (by simpa using hne)]
    rw [makePs_mid_go mid "pid,ppid"]
    rw [show (psColKeys cols).2 = claimCmd cols from by rw [hkeys]]

/-- C6 amended witness: duplicates dropped, identifiers absorbed, command
alias moved to the end; the key set is the singleton "%cpu", whose only
enumeration yields the shown argument string. -/
theorem claim_C6_witness :
    (["%cpu", "%cpu", "pid", "args"] : List String) ≠ [] ∧
    (["%cpu"] : List String).Perm (psColKeys ["%cpu", "%cpu", "pid", "args"]).1 ∧
    makePsCommand ["%cpu", "%cpu", "pid", "args"] ["%cpu"] =
      ["ps", "-ewwo", "pid,ppid,%cpu,cmd"] := by
  have hp : (["%cpu"] : List String).Perm
      (psColKeys ["%cpu", "%cpu", "pid", "args"]).1 := by
    show (["%cpu"] : List String).Perm ["%cpu"]
    exact List.Perm.refl _
  refine ⟨by decide, hp, ?_⟩
  rw [(claim_C6_amended.2 ["%cpu", "%cpu", "pid", "args"] (by decide)
    ["%cpu"] hp).2.2]
  decide

/-- C7: `Find` returns the first node of the depth-first pre-order listing
satisfying the predicate (`none` when no node does), its predicate-invocation
trace is the pre-order prefix up to and including the first match (so no
later node is visited), and `ForEach` invokes its visitor exactly once per
node, in the same pre-order. -/
theorem claim_C7 (root : ProcNode) (pred : Int → Record → Bool) :
    ProcNode.Find root pred = (preorder root).find? (nodePred pred) ∧
    (root.FindT pred).1 = ProcNode.Find root pred ∧
    (root.FindT pred).2 = upToMatch (nodePred pred) (preorder root) ∧
    ProcNode.ForEachVisits root = preorder root ∧
    (preorder root).length = root.size := by
  refine ⟨Find_eq_preorder_find root pred, ?_, ?_, ForEachVisits_eq root,
    preorder_length root⟩
  · rw [FindT_spec, Find_eq_preorder_find]
  · rw [FindT_spec]

/-- C9 counterexample: the claim asks for first-line truncation and trimming
on every diagnostic, but `mapCmdError` truncates only when the first newline
sits at a positive byte index; a diagnostic starting with a newline is passed
through whole, while the claimed normalization would reduce it to the empty
string. -/
theorem claim_C9_counterexample :
    mapCmdError (.exit "\nusage: rstat") = "\nusage: rstat" ∧
    cutErrPfx (goTrimSpace (firstLineOf "\nusage: rstat")) = "" ∧
    mapCmdError (.exit "\nusage: rstat") ≠
      cutErrPfx (goTrimSpace (firstLineOf "\nusage: rstat")) := by
  refine ⟨rfl, rfl, by decide⟩

/-- C9 amended: for an external-command failure the diagnostic is truncated to
its first line and trimmed only when the first newline sits at a positive
index; with the newline absent or leading, the whole diagnostic is kept.  In
either case one leading prefix of alphabetic characters, a colon and
whitespace is then cut when present (`cutErrPrefix` returns the rest of the
diagnostic after such a maximal prefix, and the diagnostic unchanged when no
such prefix exists). -/
theorem claim_C9_amended (stderr : String) :
    (∀ i, firstNewlineIdx stderr = some i → 0 < i →
      mapCmdError (.exit stderr) = cutErrPfx (goTrimSpace (firstLineOf stderr))) ∧
    (firstNewlineIdx stderr = some 0 → mapCmdError (.exit stderr) = cutErrPfx stderr) ∧
    (firstNewlineIdx stderr = none → mapCmdError (.exit stderr) = cutErrPfx stderr) ∧
    (∀ t, ClaimPfx stderr t → cutErrPfx stderr = t) ∧
    ((∀ t, ¬ ClaimPfx stderr t) → cutErrPfx stderr = stderr) := by
  refine ⟨?_, ?_, ?_, fun t ht => cutErrPfx_of_claim stderr t ht, ?_⟩
  · intro i h hi
    show cutErrPfx (match firstNewlineIdx stderr with
      | some i =>
        if 0 < i then goTrimSpace (String.mk (stderr.data.take i)) else stderr
      | none => stderr) = _
    rw [h]
    show cutErrPfx (if 0 < i then goTrimSpace (String.mk (stderr.data.take i))
      else stderr) = _
    rw [if_pos hi]
    have h0 : stderr.data.findIdx? (fun c => c == '\n') 0 = some i := h
    have ht := (take_findIdx_eq_takeWhile stderr.data 0 i h0).2
    rw [Nat.sub_zero] at ht
    show _ = cutErrPfx (goTrimSpace
      (String.mk (stderr.data.takeWhile (fun c => !(c == '\n')))))
    rw [← ht]
  · intro h
    show cutErrPfx (match firstNewlineIdx stderr with
      | some i =>
        if 0 < i then goTrimSpace (String.mk (stderr.data.take i)) else stderr
      | none => stderr) = _
    rw [h]
    rfl
  · intro h
    show cutErrPfx (match firstNewlineIdx stderr with
      | some i =>
        if 0 < i then goTrimSpace (String.mk (stderr.data.take i)) else stderr
      | none => stderr) = _
    rw [h]
  · intro hno
    unfold cutErrPfx
    cases hm : matchErrPfx stderr with
    | none => rfl
    | some e => exact absurd (matchErrPfx_claim stderr e hm) (hno _)

/-- C9 amended witness: a two-line diagnostic with a program-name prefix on
the first line is reduced to the bare message. -/
theorem claim_C9_witness :
    firstNewlineIdx "ps: bad\nusage: x" = some 7 ∧ 0 < 7 ∧
    mapCmdError (.exit "ps: bad\nusage: x") = "bad" := by
  refine ⟨rfl, by decide, ?_⟩
  rw [(claim_C9_amended "ps: bad\nusage: x").1 7 rfl (by decide)]
  decide


/-- C1 counterexample record set: a single record whose pid and parent pid are
both 1, accepted by `buildProcTree` (both fields extract, pid 1 present). -/
def c1rec : Record := [("PID", "1"), ("PPID", "1")]

/-- C1 counterexample graph: the root node lists itself as a child. -/
def c1g : BGraph := [(1, ⟨1, c1rec, [1]⟩)]

/-- C1 counterexample: the claim promises an acyclic result for every accepted
record set, but a record whose parent pid equals its own pid 1 is accepted and
produces a root node that lists itself as a child — a cycle among the nodes a
traversal visits. -/
theorem claim_C1_counterexample :
    buildProcTree [c1rec] = .ok (⟨1, c1rec, [1]⟩, c1g) ∧
    childEdge c1g 1 1 ∧
    Relation.TransGen (childEdge c1g) 1 1 := by
  have hedge : childEdge c1g 1 1 := ⟨⟨1, c1rec, [1]⟩, rfl, by decide⟩
  exact ⟨by decide, hedge, Relation.TransGen.single hedge⟩

/-- C1 amended: for a record set accepted by `buildProcTree` whose root parent
chain never returns to pid 1 (no iterate of the parent map carries 1 back to
itself), the returned structure is rooted at the node of pid 1, the reachable
part is acyclic, and the nodes a full traversal visits — those reachable from
the root along child lists — are exactly the records present in the table
whose parent-pid chain reaches pid 1; a record whose chain does not reach
pid 1 is absent from the traversal with no error reported (the run still
returns `.ok`). -/
theorem claim_C1_amended (records : List Record) (root : PN) (g : BGraph)
    (hb : buildProcTree records = .ok (root, g))
    (hacyc : ∀ k, 1 ≤ k → ppIter g k 1 ≠ some 1) :
    root.pid = 1 ∧ idxLookup g 1 = some root ∧
    (∀ p, ReachRoot g p ↔ ((idxLookup g p).isSome ∧ ∃ k, ppIter g k p = some 1)) ∧
    (∀ p, ReachRoot g p → ¬ Relation.TransGen (childEdge g) p p) := by
  obtain ⟨idx, hidx, hlink, hnd, hchar, hroot⟩ := buildProcTree_ok_char records root g hb
  refine ⟨?_, hroot, fun p => reachRoot_iff g idx hnd hchar root hroot p,
    fun p hp => reach_acyclic g idx hnd hchar root hroot hacyc p hp⟩
  have h1 := hchar 1
  rw [hroot] at h1
  cases hil : idxLookup idx 1 with
  | none =>
    rw [hil] at h1
    simp at h1
  | some st =>
    rw [hil] at h1
    simp at h1
    rw [h1]

/-- C1 witness records: pid 1 under parent 0, pid 2 under parent 1, and an
orphan pid 7 whose claimed parent 9 is not in the set. -/
def r1W : Record := [("PID", "1"), ("PPID", "0")]

/-- C1 witness record 2. -/
def r2W : Record := [("PID", "2"), ("PPID", "1")]

/-- C1 witness record 7 (orphan). -/
def r7W : Record := [("PID", "7"), ("PPID", "9")]

/-- C1 witness root node. -/
def rootW : PN := ⟨1, r1W, [2]⟩

/-- C1 witness graph: pid 2 linked under the root, pid 7 left unlinked. -/
def gW : BGraph := [(1, ⟨1, r1W, [2]⟩), (2, ⟨2, r2W, []⟩), (7, ⟨7, r7W, []⟩)]

/-- C1 amended witness: on a three-record set with one orphan, the build
succeeds, the root is the node of pid 1, pid 2 is visited (its parent chain
reaches 1) and the orphan pid 7 is not, with no error reported. -/
theorem claim_C1_witness :
    rootW.pid = 1 ∧ idxLookup gW 1 = some rootW ∧
    ReachRoot gW 2 ∧ ¬ ReachRoot gW 7 := by
  have hacyc : ∀ k, 1 ≤ k → ppIter gW k 1 ≠ some 1 := by
    intro k hk
    cases k with
    | zero => omega
    | succ m =>
      cases m with
      | zero => decide
      | succ m2 =>
        intro hc
        have h0 : ppIter gW (m2 + 1 + 1) 1 = none := rfl
        rw [h0] at hc
        exact absurd hc (by simp)
  have h := claim_C1_amended [r1W, r2W, r7W] rootW gW (by decide) hacyc
  refine ⟨h.1, h.2.1, ?_, ?_⟩
  · exact (h.2.2.1 2).mpr ⟨by decide, 1, by decide⟩
  · intro hr
    obtain ⟨-, k, hk⟩ := (h.2.2.1 7).mp hr
    cases k with
    | zero => exact absurd hk (by decide)
    | succ m =>
      cases m with
      | zero => exact absurd hk (by decide)
      | succ m2 =>
        have h0 : ppIter gW (m2 + 1 + 1) 7 = none := rfl
        rw [h0] at hk
        exact absurd hk (by simp)


end RStat
